import Mathlib

/-!
# QMatrixClient: the connection orchestrator

A shallow embedding of `connection.cpp` / `connection.h` (the `Connection`
class: status, login, logout, user registry), of `connectSingleShot` and
`callApi` from `lib/connection.h`, of the converters of `lib/converters.h`,
of the job classes `GetNotificationsJob`, `GetEventContextJob` and
`UploadDeviceKeys`, and of `MemberSorter::lowerBoundIndex` from `room.h`.
`Room::roomMembername` and `Connection::provideRoom`, which the sources only
declare, are modelled from the spec.

Stateful C++ is modelled by explicit state passing over a `World`: the
private data of one `Connection` together with the part of its environment
that the member functions act on (objects created with `new`, jobs started
and abandoned, slots connected to job signals, signals emitted by the
connection). `qDebug()` output is not part of the model.
-/

namespace QMatrixClient

/-- Address of a heap object; `nullptr` is address zero. -/
abbrev Ptr := Nat

/-- The null pointer. -/
def nullptr : Ptr := 0

/-- Enumeration `Connection::Status` of connection.h. -/
inductive Status
  | Disconnected
  | Connecting
  | Connected
  | Reconnecting
  | Failed
  deriving DecidableEq, Repr

/-- Signals declared by `Connection` in connection.h. -/
inductive Signal
  | resolved
  | connected
  | reconnected
  | disconnected
  | loggedOut
  | syncDone
  | newRoom (room : Ptr)
  | joinedRoom (room : Ptr)
  | statusChanged (newStatus : Status)
  | loginError (error : String)
  | connectionError (error : String)
  | resolveError (error : String)
  deriving DecidableEq, Repr

/-- A `QHash<QString, V>`: at most one value per key is ever looked up, the
first entry with the key. -/
abbrev QHash (V : Type) := List (String × V)

/-- Member `QHash::contains`. -/
def QHash.contains {V : Type} (h : QHash V) (key : String) : Bool :=
  h.any (fun e => e.1 == key)

/-- Member `QHash::value`: the value stored under the key, or a
default-constructed value when the key is absent. -/
def QHash.value {V : Type} [Inhabited V] (h : QHash V) (key : String) : V :=
  match h.find? (fun e => e.1 == key) with
  | some e => e.2
  | none => default

/-- Member `QHash::insert`: replaces the value of an existing key, adds the
entry otherwise. -/
def QHash.insert {V : Type} (h : QHash V) (key : String) (v : V) : QHash V :=
  if QHash.contains h key then
    h.map (fun e => if e.1 == key then (key, v) else e)
  else
    h ++ [(key, v)]

/-- Class `ConnectionData`, as far as connection.cpp uses it: the server and
the access token (`setToken` / `token`). -/
structure ConnectionData where
  baseUrl : String
  token : String
  deriving DecidableEq, Repr

/-- Class `ConnectionPrivate`: the members that connection.cpp reads and
writes through `d->`. -/
structure ConnectionPrivate where
  data : ConnectionData
  status : Status
  username : String
  password : String
  userId : String
  userMap : QHash Ptr
  roomMap : QHash Ptr
  syncJob : Ptr
  deriving DecidableEq, Repr

/-- The job classes that the modelled member functions create. -/
inductive JobKind
  | PasswordLogin (user : String) (password : String)
  | LogoutJob
  deriving DecidableEq, Repr

/-- A job object created with `new`. -/
structure Job where
  ptr : Ptr
  kind : JobKind
  deriving DecidableEq, Repr

/-- Signals of a job that connection.cpp connects to. -/
inductive JobSignal
  | result
  | success
  | failure
  deriving DecidableEq, Repr

/-- What connection.cpp connects to a job signal: the lambda of
`invokeLogin` (it captures `loginJob`, the very job it is connected to), and
the signal `Connection::loggedOut` (a signal-to-signal connection). -/
inductive Slot
  | loginResult
  | loggedOut
  deriving DecidableEq, Repr

/-- One `connect(job, signal, ...)` made by the connection. -/
structure JobConnection where
  sender : Ptr
  signal : JobSignal
  slot : Slot
  deriving DecidableEq, Repr

/-- What the accessors of a finished `PasswordLogin` job return: `error()`
(zero means no error), `errorString()`, `id()` and `token()`. -/
structure LoginReply where
  error : Int
  errorString : String
  id : String
  token : String
  deriving DecidableEq, Repr

/-- One `Connection` object with the environment its member functions act
on. -/
structure World where
  /-- The private data `d`. -/
  d : ConnectionPrivate
  /-- The address that the next `new` returns. -/
  nextPtr : Ptr
  /-- The `User` objects constructed so far, with their ids. -/
  users : List (Ptr × String)
  /-- The job objects constructed so far. -/
  jobs : List Job
  /-- The jobs on which `start()` was called, in call order. -/
  started : List Ptr
  /-- The jobs on which `abandon()` was called, in call order. -/
  abandoned : List Ptr
  /-- The connections from job signals made so far, in connection order. -/
  connections : List JobConnection
  /-- The signals emitted by the connection so far, in emission order. -/
  emitted : List Signal
  deriving DecidableEq, Repr

namespace Connection

/-- Statement `emit signal(...)` in a member function of `Connection`. -/
def emit (w : World) (s : Signal) : World :=
  { w with emitted := w.emitted ++ [s] }

/-- Member `Connection::status`. -/
def status (w : World) : Status := w.d.status

/-- Member `Connection::isConnected`. -/
def isConnected (w : World) : Bool := decide (w.d.status = Status.Connected)

/-- Member `Connection::userId`. -/
def userId (w : World) : String := w.d.userId

/-- Member `Connection::token`. -/
def token (w : World) : String := w.d.data.token

/-- Member `Connection::setStatus`. -/
def setStatus (w : World) (newStatus : Status) : World :=
  if status w = newStatus then w
  else
    let w1 : World := { w with d := { w.d with status := newStatus } }
    emit w1 (Signal.statusChanged (status w1))

/-- Member `Connection::connectWithToken`. -/
def connectWithToken (w : World) (userId : String) (token : String) : World :=
  let w1 := setStatus w Status.Connected
  let w2 : World := { w1 with d := { w1.d with userId := userId } }
  let w3 : World := { w2 with d := { w2.d with data := { w2.d.data with token := token } } }
  emit w3 Signal.connected

/-- The lambda that `invokeLogin` connects to `PasswordLogin::result`; `r`
holds what the accessors of `loginJob` return when the slot runs. -/
def loginResult (w : World) (r : LoginReply) : World :=
  if r.error ≠ 0 then
    emit (setStatus w Status.Failed) (Signal.loginError r.errorString)
  else
    let oldStatus := status w
    let w1 := connectWithToken w r.id r.token
    if oldStatus = Status.Reconnecting then emit w1 Signal.reconnected
    else emit w1 Signal.connected

/-- Expression `new T(...)` for a job class: the object is constructed at the
next free address. -/
def newJob (w : World) (kind : JobKind) : Ptr × World :=
  (w.nextPtr, { w with nextPtr := w.nextPtr + 1, jobs := w.jobs ++ [⟨w.nextPtr, kind⟩] })

/-- Call `job->start()`. -/
def startJob (w : World) (job : Ptr) : World :=
  { w with started := w.started ++ [job] }

/-- Call `connect(job, signal, slot)`. -/
def connect (w : World) (job : Ptr) (signal : JobSignal) (slot : Slot) : World :=
  { w with connections := w.connections ++ [⟨job, signal, slot⟩] }

/-- Member `Connection::invokeLogin`. -/
def invokeLogin (w : World) : World :=
  let w1 :=
    if status w = Status.Disconnected then setStatus w Status.Connecting
    else setStatus w Status.Reconnecting
  let (loginJob, w2) := newJob w1 (JobKind.PasswordLogin w1.d.username w1.d.password)
  let w3 := startJob w2 loginJob
  connect w3 loginJob JobSignal.result Slot.loginResult

/-- Member `Connection::connectToServer`. -/
def connectToServer (w : World) (user : String) (password : String) : World :=
  let w1 : World := { w with d := { w.d with username := user } }
  let w2 : World := { w1 with d := { w1.d with password := password } }
  invokeLogin w2

/-- Member `Connection::reconnect`. -/
def reconnect (w : World) : World := invokeLogin w

/-- Member `Connection::disconnectFromServer`; `none` when `d->syncJob` is
the null pointer, which the code dereferences unchecked. -/
def disconnectFromServer (w : World) : Option World :=
  if w.d.syncJob = nullptr then none
  else
    let w1 : World := { w with abandoned := w.abandoned ++ [w.d.syncJob] }
    some (setStatus w1 Status.Disconnected)

/-- Member `Connection::logout`. -/
def logout (w : World) : World :=
  let (job, w1) := newJob w JobKind.LogoutJob
  let w2 := connect w1 job JobSignal.success Slot.loggedOut
  startJob w2 job

/-- Member `Connection::createUser` (the base implementation):
`new User(userId, this)`. -/
def createUser (w : World) (userId : String) : Ptr × World :=
  (w.nextPtr, { w with nextPtr := w.nextPtr + 1, users := w.users ++ [(w.nextPtr, userId)] })

/-- Member `Connection::user(QString)`. -/
def user (w : World) (userId : String) : Ptr × World :=
  if QHash.contains w.d.userMap userId then
    (QHash.value w.d.userMap userId, w)
  else
    let (user, w1) := createUser w userId
    let w2 : World := { w1 with d := { w1.d with userMap := QHash.insert w1.d.userMap userId user } }
    (user, w2)

/-- Runs one connected slot; `r` holds the accessor values of the emitting
job. -/
def runSlot (w : World) (r : LoginReply) : Slot → World
  | Slot.loginResult => loginResult w r
  | Slot.loggedOut => emit w Signal.loggedOut

/-- The job at address `job` emits `signal`: the slots connected to that
signal of that job run in connection order. -/
def jobEmits (w : World) (job : Ptr) (signal : JobSignal) (r : LoginReply) : World :=
  (w.connections.filter (fun c => c.sender = job ∧ c.signal = signal)).foldl
    (fun w1 c => runSlot w1 r c.slot) w

/-- Calls `user(id)` for each id of the list in turn, dropping the results. -/
def userCalls (w : World) : List String → World
  | [] => w
  | userId :: rest => userCalls (user w userId).2 rest

/-- The job at address `job` emits the given signals one after the other. -/
def jobEmitsAll (w : World) (job : Ptr) (r : LoginReply) : List JobSignal → World
  | [] => w
  | signal :: rest => jobEmitsAll (jobEmits w job signal r) job r rest

/-- No connection made so far names the address that the next `new` returns
as its sender: connections are only ever made from objects that exist. -/
def FreshNext (w : World) : Prop :=
  ∀ c ∈ w.connections, c.sender < w.nextPtr

instance (w : World) : Decidable (FreshNext w) := by
  unfold FreshNext; infer_instance

/-- A reply of the login job that reports an error. -/
def sampleError : LoginReply :=
  { error := 1, errorString := "Forbidden", id := "", token := "" }

/-- A reply of the login job that reports no error. -/
def sampleReply : LoginReply :=
  { error := 0, errorString := "", id := "@bob:matrix.org", token := "tok1" }

/-- A connection that is logged in and syncing. -/
def sampleWorld : World :=
  { d := { data := { baseUrl := "https://matrix.org", token := "tok0" },
           status := Status.Connected,
           username := "alice", password := "secret", userId := "@alice:matrix.org",
           userMap := [("@alice:matrix.org", 1)], roomMap := [], syncJob := 2 },
    nextPtr := 3,
    users := [(1, "@alice:matrix.org")],
    jobs := [],
    started := [], abandoned := [], connections := [], emitted := [] }

end Connection

/-! ## Signals and slots: `connectSingleShot` of lib/connection.h -/

/-- A `QMetaObject::Connection`: the handle of a connection, or the invalid
handle (`none`), which converts to `false`. -/
abbrev Handle := Option Nat

/-- What a connection made by `connectSingleShot` calls: the slot handed in by
the caller, or the lambda `[connection] { QObject::disconnect(connection); }`.
The slot is code of the receiver. It is identified by a name and it may emit
signals while it runs: `script` lists the signals that it emits during its
first run, during its second run, and so on; past the end of the script it
emits none. -/
inductive Callee
  | slot (name : String) (script : List (List (Ptr × String)))
  | disconnect (connection : Handle)
  deriving DecidableEq, Repr

/-- One entry of a connection list of a sender. -/
structure MetaConnection where
  handle : Nat
  sender : Ptr
  signal : String
  receiver : Ptr
  callee : Callee
  deriving DecidableEq, Repr

/-- The connections that exist between objects, the number of the next
handle, and the record of the slots that ran: the handle of the connection
that called the slot, and the slot. -/
structure SignalSlots where
  connections : List MetaConnection
  nextHandle : Nat
  invoked : List (Nat × String)
  deriving DecidableEq, Repr

/-- Function `QObject::connect(sender, signal, receiver, slot,
Qt::DirectConnection)`: the new connection goes to the end of the connection
list; the handle is invalid when the sender or the receiver is null. -/
def QObject.connect (o : SignalSlots) (sender : Ptr) (signal : String) (receiver : Ptr)
    (callee : Callee) : Handle × SignalSlots :=
  if sender = nullptr ∨ receiver = nullptr then (none, o)
  else
    (some o.nextHandle,
      { o with
        connections := o.connections ++ [⟨o.nextHandle, sender, signal, receiver, callee⟩],
        nextHandle := o.nextHandle + 1 })

/-- Function `QObject::disconnect(connection)`: removes the connection; does
nothing for an invalid handle or a connection that is already gone. -/
def QObject.disconnect (o : SignalSlots) (connection : Handle) : SignalSlots :=
  match connection with
  | none => o
  | some h => { o with connections := o.connections.filter (fun c => c.handle ≠ h) }

end QMatrixClient

/-! ## JSON values, URL queries and the converters of lib/converters.h -/

namespace QMatrixClient

/-- A `QJsonValue`. Numbers are kept as integers: none of the functions
modelled here computes with a number. -/
inductive QJsonValue
  | null
  | bool (b : Bool)
  | double (n : Int)
  | string (s : String)
  | array (items : List QJsonValue)
  | object (members : List (String × QJsonValue))
  | undefined
  deriving Repr

/-- A `QJsonObject`: its members in iteration order, which is the order of
the keys. -/
abbrev QJsonObject := List (String × QJsonValue)

/-- A `QJsonArray`. -/
abbrev QJsonArray := List QJsonValue

/-- A `QStringList`. -/
abbrev QStringList := List String

/-- Member `QJsonValue::isUndefined`. -/
def QJsonValue.isUndefined : QJsonValue → Bool
  | QJsonValue.undefined => true
  | _ => false

/-- Member `QJsonValue::toString`: the string of a string value, a null
string for every other value. -/
def QJsonValue.toString : QJsonValue → String
  | QJsonValue.string s => s
  | _ => ""

/-- Member `QJsonValue::toObject`: the object of an object value, an empty
object for every other value. -/
def QJsonValue.toObject : QJsonValue → QJsonObject
  | QJsonValue.object o => o
  | _ => []

/-- Member `QJsonValue::toArray`. -/
def QJsonValue.toArray : QJsonValue → QJsonArray
  | QJsonValue.array a => a
  | _ => []

/-- Member `QJsonObject::contains`. -/
def QJsonObject.contains (o : QJsonObject) (key : String) : Bool :=
  o.any (fun e => e.1 == key)

/-- Member `QJsonObject::value`: the value under the key, or
`QJsonValue::Undefined` when the key is absent. -/
def QJsonObject.value (o : QJsonObject) (key : String) : QJsonValue :=
  match o.find? (fun e => e.1 == key) with
  | some e => e.2
  | none => QJsonValue.undefined

/-- Member `QJsonObject::remove`. -/
def QJsonObject.remove (o : QJsonObject) (key : String) : QJsonObject :=
  o.filter (fun e => e.1 != key)

/-- The `operator<` of `QString`: the lexicographic order of the
characters. -/
def QString.lt (a b : String) : Bool := decide (a.data < b.data)

/-- Member `QString::toLower`, character by character. -/
def QString.toLower (s : String) : String := String.mk (s.data.map Char.toLower)

/-- Insertion of a defined value at the place of the key in key order,
replacing the value of the key when it is present. -/
def QJsonObject.put : QJsonObject → String → QJsonValue → QJsonObject
  | [], key, value => [(key, value)]
  | (k, v) :: rest, key, value =>
    if QString.lt key k then (key, value) :: (k, v) :: rest
    else if key = k then (key, value) :: rest
    else (k, v) :: QJsonObject.put rest key value

/-- Member `QJsonObject::insert`: inserting `QJsonValue::Undefined` removes
the key. -/
def QJsonObject.insert (o : QJsonObject) (key : String) (value : QJsonValue) : QJsonObject :=
  if value.isUndefined then QJsonObject.remove o key
  else QJsonObject.put o key value

/-- Constructor of `QJsonObject` from an initializer list of pairs. -/
def QJsonObject.fromPairs (pairs : List (String × QJsonValue)) : QJsonObject :=
  pairs.foldl (fun o p => QJsonObject.insert o p.1 p.2) []

/-- Function `QJsonArray::fromStringList`. -/
def QJsonArray.fromStringList (strings : QStringList) : QJsonArray :=
  strings.map QJsonValue.string

/-- A `QJsonDocument`: an object, an array, or a null document. -/
inductive QJsonDocument
  | object (o : QJsonObject)
  | array (a : QJsonArray)
  | null
  deriving Repr

/-- Member `QJsonDocument::object`: an empty object when the document does
not hold an object. -/
def QJsonDocument.toObject : QJsonDocument → QJsonObject
  | QJsonDocument.object o => o
  | _ => []

/-- A `QUrlQuery`: its items, key and value, in the order they were
added. -/
abbrev QUrlQuery := List (String × String)

/-- Member `QUrlQuery::addQueryItem`. -/
def QUrlQuery.addQueryItem (q : QUrlQuery) (key : String) (value : String) : QUrlQuery :=
  q ++ [(key, value)]

/-- Member `QUrlQuery::hasQueryItem`. -/
def QUrlQuery.hasQueryItem (q : QUrlQuery) (key : String) : Bool :=
  q.any (fun e => e.1 == key)

/-- Member `QUrlQuery::allQueryItemValues`. -/
def QUrlQuery.allQueryItemValues (q : QUrlQuery) (key : String) : List String :=
  (q.filter (fun e => e.1 == key)).map (fun e => e.2)

/-- Expression `QString("%1").arg(n)` for an `int`: the number in decimal
notation, with a minus sign when negative. -/
def argInt (n : Int) : String := toString n

/-- The number that a list of decimal digits denotes, most significant digit
first. -/
def decimalValue (digits : List Char) : Nat :=
  digits.foldl (fun acc c => 10 * acc + (c.toNat - '0'.toNat)) 0

/-- Whether `digits` is the decimal notation of the natural number `n`: at
least one character, every character one of `0` to `9`, no leading zero
except in the notation of zero itself, and the digits denote `n`. -/
def isDecimalDigits (digits : List Char) (n : Nat) : Bool :=
  match digits with
  | [] => false
  | d :: rest =>
    (d :: rest).all Char.isDigit && (d != '0' || rest.isEmpty) &&
      decimalValue (d :: rest) == n

/-- Whether `text` is the decimal notation of the integer `n`: the decimal
notation of `n` itself when `n` is not negative, and a minus sign followed
by the decimal notation of `-n` when it is. -/
def isDecimalOf (text : String) (n : Int) : Bool :=
  if n < 0 then
    match text.data with
    | [] => false
    | sign :: digits => sign == '-' && isDecimalDigits digits (-n).toNat
  else isDecimalDigits text.data n.toNat

/-- An `Omittable<T>` of util.h: a value that may be omitted. -/
abbrev Omittable (T : Type) := Option T

/-- Member `Omittable::omitted`. -/
def Omittable.omitted {T : Type} (value : Omittable T) : Bool := value.isNone

/-- The overloads of `toJson` for the value types used here. -/
class ToJson (T : Type) where
  toJson : T → QJsonValue

instance : ToJson QJsonValue := ⟨fun val => val⟩

instance : ToJson QJsonObject := ⟨fun o => QJsonValue.object o⟩

instance : ToJson QJsonArray := ⟨fun arr => QJsonValue.array arr⟩

instance : ToJson String := ⟨fun s => QJsonValue.string s⟩

instance : ToJson QStringList := ⟨fun strings => QJsonValue.array (QJsonArray.fromStringList strings)⟩

instance : ToJson Int := ⟨fun n => QJsonValue.double n⟩

instance : ToJson Bool := ⟨fun b => QJsonValue.bool b⟩

/-- The overloads of `_impl::addTo` for a container type and a value
type. -/
class AddTo (ContT : Type) (ValT : Type) where
  addTo : ContT → String → ValT → ContT

/-- Overload `addTo(QJsonObject&, const QString&, ValT&&)`. -/
instance {ValT : Type} [ToJson ValT] : AddTo QJsonObject ValT :=
  ⟨fun o k v => QJsonObject.insert o k (ToJson.toJson v)⟩

/-- Overload `addTo(QUrlQuery&, const QString&, ValT&&)` at `int`. -/
instance : AddTo QUrlQuery Int :=
  ⟨fun q k v => QUrlQuery.addQueryItem q k (argInt v)⟩

/-- Overload `addTo(QUrlQuery&, const QString&, ValT&&)` at `QString`:
`QString("%1").arg(v)` is `v`. -/
instance : AddTo QUrlQuery String :=
  ⟨fun q k v => QUrlQuery.addQueryItem q k v⟩

/-- Overload `addTo(QUrlQuery&, const QString&, bool)`. -/
instance : AddTo QUrlQuery Bool :=
  ⟨fun q k v => QUrlQuery.addQueryItem q k (if v then "true" else "false")⟩

/-- Overload `addTo(QUrlQuery&, const QString&, const QStringList&)`. -/
instance : AddTo QUrlQuery QStringList :=
  ⟨fun q k vals => vals.foldl (fun q1 v => QUrlQuery.addQueryItem q1 k v) q⟩

/-- Overload `addTo(QUrlQuery&, const QString&, const QJsonObject&)`. -/
instance : AddTo QUrlQuery QJsonObject :=
  ⟨fun q _ vals => vals.foldl (fun q1 e => QUrlQuery.addQueryItem q1 e.1 e.2.toString) q⟩

/-- The value types that have a member `isEmpty()`. -/
class HasIsEmpty (ValT : Type) where
  isEmpty : ValT → Bool

instance : HasIsEmpty String := ⟨fun s => s.isEmpty⟩

instance : HasIsEmpty QStringList := ⟨fun l => l.isEmpty⟩

instance : HasIsEmpty QJsonObject := ⟨fun o => o.isEmpty⟩

namespace AddNode

/-- The primary template `AddNode<ValT, Force>::impl`, for types that do not
have `isEmpty()` and for every type when `Force` is true. -/
def implPrimary {ContT ValT : Type} [AddTo ContT ValT] (container : ContT) (key : String)
    (value : ValT) : ContT :=
  AddTo.addTo container key value

/-- The specialisation `AddNode<ValT, false, decltype(value.isEmpty())>::impl`,
for types that have `isEmpty()`. -/
def implIfNotEmpty {ContT ValT : Type} [AddTo ContT ValT] [HasIsEmpty ValT]
    (container : ContT) (key : String) (value : ValT) : ContT :=
  if !HasIsEmpty.isEmpty value then implPrimary container key value
  else container

/-- The specialisation `AddNode<Omittable<ValT>, Force>::impl`. -/
def implOmittable {ContT ValT : Type} [AddTo ContT ValT] [AddTo ContT String]
    (Force : Bool) (container : ContT) (key : String) (value : Omittable ValT) : ContT :=
  match value with
  | some v => implPrimary container key v
  | none => if Force then implPrimary container key "" else container

end AddNode

/-- Selection of the `AddNode` template for a value type: `impl Force` is
`AddNode<ValT, Force>::impl`. -/
class AddNode (ContT : Type) (ValT : Type) where
  impl : Bool → ContT → String → ValT → ContT

/-- Types with `isEmpty()`: the specialisation when `Force` is false, the
primary template otherwise. -/
instance {ContT ValT : Type} [AddTo ContT ValT] [HasIsEmpty ValT] : AddNode ContT ValT :=
  ⟨fun Force container key value =>
    if Force then AddNode.implPrimary container key value
    else AddNode.implIfNotEmpty container key value⟩

/-- The type `int` has no `isEmpty()`: the primary template. -/
instance {ContT : Type} [AddTo ContT Int] : AddNode ContT Int :=
  ⟨fun _ container key value => AddNode.implPrimary container key value⟩

/-- The type `bool` has no `isEmpty()`: the primary template. -/
instance {ContT : Type} [AddTo ContT Bool] : AddNode ContT Bool :=
  ⟨fun _ container key value => AddNode.implPrimary container key value⟩

/-- Omittable values: the specialisation for `Omittable<ValT>`. -/
instance {ContT ValT : Type} [AddTo ContT ValT] [AddTo ContT String] :
    AddNode ContT (Omittable ValT) :=
  ⟨fun Force container key value => AddNode.implOmittable Force container key value⟩

/-- Constant `IfNotEmpty`. -/
def IfNotEmpty : Bool := false

/-- Function template `addParam<Force>(container, key, value)`. -/
def addParam {ContT ValT : Type} [AddNode ContT ValT] (Force : Bool) (container : ContT)
    (key : String) (value : ValT) : ContT :=
  AddNode.impl Force container key value

end QMatrixClient

/-! ## Jobs: status, request description and the generated job classes -/

namespace QMatrixClient

/-- Modelled from the spec: the enumeration `BaseJob::StatusCode` (basejob.h
is not among the sources). The spec names the statuses
`Pending, InProgress, Success, Failure(kind, message, details)` and the kinds
`NoError, NetworkError, TimeoutError, JsonParseError, ContentAccessError,
NotFoundError, IncorrectRequestError, IncorrectResponseError,
TooLargeForUpload, UserDefinedError, Abandoned`. -/
inductive StatusCode
  | Success
  | Pending
  | InProgress
  | NoError
  | NetworkError
  | TimeoutError
  | JsonParseError
  | ContentAccessError
  | NotFoundError
  | IncorrectRequestError
  | IncorrectResponseError
  | TooLargeForUpload
  | UserDefinedError
  | Abandoned
  deriving DecidableEq, Repr

/-- A `BaseJob::Status`: a status code and a message. -/
structure BaseJob.Status where
  code : StatusCode
  message : String
  deriving DecidableEq, Repr

/-- Conversion of a status code to a `Status`, with an empty message, as in
`return Success;`. -/
def BaseJob.Status.ofCode (code : StatusCode) : BaseJob.Status := ⟨code, ""⟩

/-- Enumeration `HttpVerb`. -/
inductive HttpVerb
  | Get
  | Put
  | Post
  | Delete
  deriving DecidableEq, Repr

/-- What a job class hands to the constructor of `BaseJob`: the verb, the
name of the job, the endpoint, the query and the request data. -/
structure BaseJob where
  verb : HttpVerb
  name : String
  endpoint : String
  query : QUrlQuery
  data : QJsonObject
  deriving Repr

/-- What a job class hands to `BaseJob::makeRequestUrl`: the base URL, the
path and the query. -/
structure RequestUrl where
  baseUrl : String
  path : String
  query : QUrlQuery
  deriving DecidableEq, Repr

/-- Call of `BaseJob::makeRequestUrl`; the model keeps its three
arguments. -/
def BaseJob.makeRequestUrl (baseUrl : String) (path : String) (query : QUrlQuery) :
    RequestUrl :=
  ⟨baseUrl, path, query⟩

/-- Constant `basePath` of the generated job files. -/
def basePath : String := "/_matrix/client/r0"

/-- Structure `GetNotificationsJob::Notification`; the type of events and
its converter belong to the event classes. -/
structure Notification (EventPtr : Type) where
  actions : List QJsonObject
  event : EventPtr
  profileTag : String
  read : Bool
  roomId : String
  ts : Int

/-- Member `QJsonValue::toBool`. -/
def QJsonValue.toBool : QJsonValue → Bool
  | QJsonValue.bool b => b
  | _ => false

/-- Member `QJsonValue::toDouble`. -/
def QJsonValue.toDouble : QJsonValue → Int
  | QJsonValue.double n => n
  | _ => 0

namespace GetNotificationsJob

/-- Converter `FromJson<GetNotificationsJob::Notification>`; `fromJsonEvent`
stands for `fromJson<EventPtr>`. -/
def fromJsonNotification {EventPtr : Type} (fromJsonEvent : QJsonValue → EventPtr)
    (jv : QJsonValue) : Notification EventPtr :=
  let o := jv.toObject
  { actions := (QJsonObject.value o "actions").toArray.map QJsonValue.toObject,
    event := fromJsonEvent (QJsonObject.value o "event"),
    profileTag := (QJsonObject.value o "profile_tag").toString,
    read := (QJsonObject.value o "read").toBool,
    roomId := (QJsonObject.value o "room_id").toString,
    ts := (QJsonObject.value o "ts").toDouble }

/-- Class `GetNotificationsJob::Private`. -/
structure Private (EventPtr : Type) where
  nextToken : String
  notifications : List (Notification EventPtr)

/-- Function `queryToGetNotifications`. -/
def queryToGetNotifications (from_ : String) (limit : Int) (only : String) : QUrlQuery :=
  let q0 : QUrlQuery := []
  let q1 := if !from_.isEmpty then QUrlQuery.addQueryItem q0 "from" from_ else q0
  let q2 := QUrlQuery.addQueryItem q1 "limit" (argInt limit)
  let q3 := if !only.isEmpty then QUrlQuery.addQueryItem q2 "only" only else q2
  q3

/-- Member `GetNotificationsJob::makeRequestUrl`. -/
def makeRequestUrl (baseUrl : String) (from_ : String) (limit : Int) (only : String) :
    RequestUrl :=
  BaseJob.makeRequestUrl baseUrl (basePath ++ "/notifications")
    (queryToGetNotifications from_ limit only)

/-- Constructor `GetNotificationsJob::GetNotificationsJob`. -/
def new (from_ : String) (limit : Int) (only : String) : BaseJob :=
  { verb := HttpVerb.Get, name := "GetNotificationsJob",
    endpoint := basePath ++ "/notifications",
    query := queryToGetNotifications from_ limit only,
    data := [] }

/-- The message of the status that `parseJson` returns when the key
`notifications` is missing; the key stands between two apostrophes. -/
def missingKeyMessage : String := "The key \x27notifications\x27 not found in the response"

/-- Member `GetNotificationsJob::parseJson`: the returned status and the
private data after the call. -/
def parseJson {EventPtr : Type} (fromJsonEvent : QJsonValue → EventPtr)
    (d : Private EventPtr) (data : QJsonDocument) : BaseJob.Status × Private EventPtr :=
  let json := data.toObject
  let d1 : Private EventPtr := { d with nextToken := (QJsonObject.value json "next_token").toString }
  if !QJsonObject.contains json "notifications" then
    (⟨StatusCode.JsonParseError, missingKeyMessage⟩, d1)
  else
    (BaseJob.Status.ofCode StatusCode.Success,
      { d1 with
        notifications :=
          (QJsonObject.value json "notifications").toArray.map
            (fromJsonNotification fromJsonEvent) })

end GetNotificationsJob

namespace GetEventContextJob

/-- Function `queryToGetEventContext`. -/
def queryToGetEventContext (limit : Omittable Int) : QUrlQuery :=
  let q0 : QUrlQuery := []
  addParam IfNotEmpty q0 "limit" limit

/-- Member `GetEventContextJob::makeRequestUrl`. -/
def makeRequestUrl (baseUrl : String) (roomId : String) (eventId : String)
    (limit : Omittable Int) : RequestUrl :=
  BaseJob.makeRequestUrl baseUrl
    (basePath ++ "/rooms/" ++ roomId ++ "/context/" ++ eventId)
    (queryToGetEventContext limit)

/-- Constant `GetEventContextJobName`. -/
def GetEventContextJobName : String := "GetEventContextJob"

/-- Constructor `GetEventContextJob::GetEventContextJob`. -/
def new (roomId : String) (eventId : String) (limit : Omittable Int) : BaseJob :=
  { verb := HttpVerb.Get, name := GetEventContextJobName,
    endpoint := basePath ++ "/rooms/" ++ roomId ++ "/context/" ++ eventId,
    query := queryToGetEventContext limit,
    data := [] }

end GetEventContextJob

/-- Class `EncryptionManager`, as far as `UploadDeviceKeys` uses it: what
`deviceId()`, `publicIdentityKeys()` and `userId()` return. -/
structure EncryptionManager where
  deviceId : String
  publicIdentityKeys : QJsonObject
  userId : String

namespace UploadDeviceKeys

/-- Constructor `UploadDeviceKeys::UploadDeviceKeys`. -/
def new (encryptionManager : EncryptionManager) : BaseJob :=
  { verb := HttpVerb.Post, name := "UploadDeviceKeys",
    endpoint := "_matrix/client/unstable/keys/upload",
    query := [],
    data := QJsonObject.fromPairs
      [ ("device_id", ToJson.toJson encryptionManager.deviceId),
        ("algorithms", ToJson.toJson
          (["m.olm.v1.curve25519-aes-sha2", "m.megolm.v1.aes-sha2"] : QStringList)),
        ("keys", ToJson.toJson encryptionManager.publicIdentityKeys),
        ("user_id", ToJson.toJson encryptionManager.userId) ] }

end UploadDeviceKeys

/-! ## `Connection::callApi` of lib/connection.h -/

/-- Enumeration `RunningPolicy`. -/
inductive RunningPolicy
  | ForegroundRequest
  | BackgroundRequest
  deriving DecidableEq, Repr

/-- The value of an enumerator of `RunningPolicy`. -/
def RunningPolicy.toNat : RunningPolicy → Nat
  | RunningPolicy.ForegroundRequest => 0x0
  | RunningPolicy.BackgroundRequest => 0x1

/-- The jobs of a connection, seen from `callApi`: the objects constructed
with their constructor arguments, the jobs whose `failure` signal is connected
to `Connection::requestFailed`, and the calls of `start` with their
background flag. -/
structure ApiJobs (JobArgTs : Type) where
  nextPtr : Ptr
  constructed : List (Ptr × JobArgTs)
  failureConnected : List Ptr
  started : List (Ptr × Bool)
  deriving DecidableEq, Repr

namespace Connection

/-- Member template `Connection::callApi(RunningPolicy, JobArgTs&&...)`; the
second argument of `start` is `runningPolicy&BackgroundRequest` converted to
`bool`. -/
def callApi {JobArgTs : Type} (w : ApiJobs JobArgTs) (runningPolicy : RunningPolicy)
    (jobArgs : JobArgTs) : Ptr × ApiJobs JobArgTs :=
  let job := w.nextPtr
  let w1 : ApiJobs JobArgTs :=
    { w with nextPtr := w.nextPtr + 1, constructed := w.constructed ++ [(job, jobArgs)] }
  let w2 : ApiJobs JobArgTs := { w1 with failureConnected := w1.failureConnected ++ [job] }
  let w3 : ApiJobs JobArgTs :=
    { w2 with
      started := w2.started ++
        [(job, decide (runningPolicy.toNat &&& RunningPolicy.BackgroundRequest.toNat ≠ 0))] }
  (job, w3)

/-- Member template `Connection::callApi(JobArgTs&&...)`, the overload
without a policy. -/
def callApiForeground {JobArgTs : Type} (w : ApiJobs JobArgTs) (jobArgs : JobArgTs) :
    Ptr × ApiJobs JobArgTs :=
  callApi w RunningPolicy.ForegroundRequest jobArgs

end Connection

/-! ## `MemberSorter` of room.h -/

namespace std

/-- Function `std::lower_bound(first, last, value, comp)` on the range that
starts at index `first` of `c` and has `count` elements: the index of the
iterator it returns. -/
def lower_bound {T : Type} (comp : T → T → Bool) (c : List T) (value : T)
    (first count : Nat) : Nat :=
  if 0 < count then
    let step := count / 2
    let it := first + step
    match c.get? it with
    | some e =>
      if comp e value then lower_bound comp c value (it + 1) (count - (step + 1))
      else lower_bound comp c value first step
    | none => first
  else first
termination_by count
decreasing_by all_goals omega

/-- Requirement on a comparator of the sorting algorithms: a strict weak
ordering. -/
structure StrictWeakOrdering {T : Type} (comp : T → T → Bool) : Prop where
  irrefl : ∀ a, comp a a = false
  trans : ∀ a b c, comp a b = true → comp b c = true → comp a c = true
  incomp_trans : ∀ a b c, comp a b = false → comp b a = false →
    comp b c = false → comp c b = false → comp a c = false ∧ comp c a = false

/-- A sequence sorted with respect to a comparator: no element precedes an
element that stands before it. -/
def SortedBy {T : Type} (comp : T → T → Bool) (c : List T) : Prop :=
  c.Pairwise (fun a b => comp b a = false)

end std

/-- A member of a room for the member sorter: the user id and the display
name. -/
structure Member where
  id : String
  displayName : String
  deriving DecidableEq, Repr

namespace MemberSorter

/-- Modelled from the spec: `MemberSorter::operator()` (room.cpp is not among
the sources): "returns true if `u1` precedes `u2`. Ordering: by lowercased
display name, ties broken by MXID". -/
def call (u1 u2 : Member) : Bool :=
  QString.lt (QString.toLower u1.displayName) (QString.toLower u2.displayName) ||
    (QString.toLower u1.displayName == QString.toLower u2.displayName &&
      QString.lt u1.id u2.id)

/-- Member template `MemberSorter::lowerBoundIndex`; `sorter` is the call
operator of the sorter and the result is the distance of the iterator from
`c.begin()`. -/
def lowerBoundIndex {T : Type} (sorter : T → T → Bool) (c : List T) (v : T) : Nat :=
  std.lower_bound sorter c v 0 c.length - 0

/-- A member list sorted by the member sorter. -/
def sampleMembers : List Member :=
  [⟨"@ann:s", "Ann"⟩, ⟨"@bob:s", "bob"⟩, ⟨"@sam1:s", "Sam"⟩, ⟨"@sam2:s", "Sam"⟩]

end MemberSorter

end QMatrixClient

/-! ## Container converters of lib/converters.h -/

namespace QMatrixClient

/-- The converters `FromJson<T>` for the value types used here. -/
class FromJson (T : Type) where
  fromJson : QJsonValue → T

/-- Converter `FromJson<bool>`. -/
instance : FromJson Bool := ⟨QJsonValue.toBool⟩

/-- Converter `FromJson<int>`. -/
instance : FromJson Int := ⟨QJsonValue.toDouble⟩

/-- Converter `FromJson<QString>`. -/
instance : FromJson String := ⟨QJsonValue.toString⟩

/-- Converter `FromJson<QJsonArray>`. -/
instance : FromJson QJsonArray := ⟨QJsonValue.toArray⟩

/-- The primary template `FromJson<T>` at `QJsonObject`: `T(jv.toObject())`. -/
instance : FromJson QJsonObject := ⟨QJsonValue.toObject⟩

/-- The primary template `FromJson<T>` at `QJsonValue`: `T(jv.toObject())`. -/
instance : FromJson QJsonValue := ⟨fun jv => QJsonValue.object jv.toObject⟩

/-- A `QSet<T>`: its elements in iteration order; an element that is
inserted again is not added. -/
abbrev QSet (T : Type) := List T

/-- Member `QSet::insert`. -/
def QSet.insert {T : Type} [DecidableEq T] (s : QSet T) (value : T) : QSet T :=
  if value ∈ s then s else s ++ [value]

/-- Overload `toJson(const QSet<T>&)` at `QString`, whose `toJson` is the
string itself. -/
def toJsonQSet (set : QSet String) : QJsonObject :=
  set.foldl (fun json e => QJsonObject.insert json e (QJsonValue.object [])) []

/-- Converter `FromJson<QSet<T>>` at `QString`. -/
def fromJsonQSet (jv : QJsonValue) : QSet String :=
  jv.toObject.foldl (fun s e => QSet.insert s e.1) []

/-- Overload `toJson(const QHash<QString, T>&)`. -/
def toJsonQHash {T : Type} [ToJson T] (hashMap : QHash T) : QJsonObject :=
  hashMap.foldl (fun json e => QJsonObject.insert json e.1 (ToJson.toJson e.2)) []

/-- Converter `HashMapFromJson<HashMapT>` on a `QJsonObject`; the statement
`h[it.key()] = ...` is an insertion that replaces. -/
def HashMapFromJson {T : Type} [FromJson T] (jo : QJsonObject) : QHash T :=
  jo.foldl (fun h e => QHash.insert h e.1 (FromJson.fromJson e.2)) []

/-- Converter `FromJson<QHash<QString, T>>` on a `QJsonValue`. -/
def fromJsonQHash {T : Type} [FromJson T] (jv : QJsonValue) : QHash T :=
  HashMapFromJson jv.toObject

/-- What a `QJsonArray` stores for a value: `QJsonValue::Undefined` is stored
as `QJsonValue::Null`. -/
def QJsonArray.stored (value : QJsonValue) : QJsonValue :=
  if value.isUndefined then QJsonValue.null else value

/-- Member `QJsonArray::push_back`. -/
def QJsonArray.push_back (ar : QJsonArray) (value : QJsonValue) : QJsonArray :=
  ar ++ [QJsonArray.stored value]

/-- Overload `toJson(const QVector<T>&)`. -/
def toJsonQVector {T : Type} [ToJson T] (vals : List T) : QJsonArray :=
  vals.foldl (fun ar v => QJsonArray.push_back ar (ToJson.toJson v)) []

/-- Converter `ArrayFromJson<VectorT>` on a `QJsonArray`: the vector is
resized to the size of the array and filled by `std::transform`. -/
def ArrayFromJson {T : Type} [FromJson T] (ja : QJsonArray) : List T :=
  ja.map FromJson.fromJson

/-- Converter `FromJson<QVector<T>>` on a `QJsonValue`. -/
def fromJsonQVector {T : Type} [FromJson T] (jv : QJsonValue) : List T :=
  ArrayFromJson jv.toArray

end QMatrixClient

/-! ## Member names and room transitions -/

namespace QMatrixClient

namespace Room

/-- Modelled from the spec: `Room::roomMembername` (room.h only declares it,
room.cpp is not among the sources): "If the user's display name is unique
within the room's member set, return it. Else `<display_name> (<mxid>)`". A
display name is unique when no member with another id has it. -/
def roomMembername (members : List Member) (u : Member) : String :=
  if members.any (fun m => m.displayName == u.displayName && m.id != u.id) then
    u.displayName ++ " (" ++ u.id ++ ")"
  else u.displayName

/-- Two members named Sam, and a third member whose display name is the
disambiguated name of the first. -/
def collidingMembers : List Member :=
  [⟨"@sam1:s", "Sam"⟩, ⟨"@sam2:s", "Sam"⟩, ⟨"@eve:s", "Sam (@sam1:s)"⟩]

/-- Two members with one display name, and two members with another, one of
them with a user id that contains an opening parenthesis. -/
def collidingIds : List Member :=
  [⟨"@y:s", "a (@x:s)"⟩, ⟨"@z:s", "a (@x:s)"⟩, ⟨"@x:s) (@y:s", "a"⟩, ⟨"@w:s", "a"⟩]

end Room

/-- Member `QHash::find`, as an optional value. -/
def QHash.lookup {V : Type} (h : QHash V) (key : String) : Option V :=
  (h.find? (fun e => e.1 == key)).map (fun e => e.2)

/-- Member `QHash::remove`. -/
def QHash.remove {V : Type} (h : QHash V) (key : String) : QHash V :=
  h.filter (fun e => e.1 != key)

/-- Modelled from the spec: the enumeration `JoinState` (joinstate.h is not
among the sources): `join_state ∈ {Invite, Join, Leave}`. -/
inductive JoinState
  | Join
  | Invite
  | Leave
  deriving DecidableEq, Repr

/-- The signals that `Connection` of lib/connection.h emits on room
transitions. -/
inductive RoomSignal
  | newRoom (room : Ptr)
  | invitedRoom (room : Ptr) (prev : Ptr)
  | joinedRoom (room : Ptr) (prev : Ptr)
  | leftRoom (room : Ptr) (prev : Ptr)
  | aboutToDeleteRoom (room : Ptr)
  deriving DecidableEq, Repr

/-- The rooms of a connection: rooms in Invite state are stored apart from
rooms in Join or Leave state. -/
structure RoomRegistry where
  nextPtr : Ptr
  invites : QHash Ptr
  rooms : QHash (Ptr × JoinState)
  emitted : List RoomSignal
  deriving DecidableEq, Repr

/-- The signal of a transition to Join or to Leave. -/
def RoomSignal.transition (joinState : JoinState) (room prev : Ptr) : RoomSignal :=
  match joinState with
  | JoinState.Join => RoomSignal.joinedRoom room prev
  | _ => RoomSignal.leftRoom room prev

namespace Connection

/-- Modelled from the spec: `Connection::provideRoom` (lib/connection.h only
declares it and documents the signals; the definition is not among the
sources). The transitions are those of the spec and of the documentation of
the signals: none to Invite `newRoom; invitedRoom(r, null)`, none to Join
`newRoom; joinedRoom(r, null)`, none to Leave `newRoom; leftRoom(r, null)`,
Invite to Join `newRoom(r), joinedRoom(r, i), aboutToDeleteRoom(i)`, Invite
to Leave likewise with `leftRoom`, Join to Leave `leftRoom(r)`, Leave to
Invite `newRoom(i), invitedRoom(i, r)`, Leave to Join `joinedRoom(r)`; "an
Invite room and a Join/Leave room with the same id are distinct objects while
both exist". -/
def provideRoom (w : RoomRegistry) (roomId : String) (joinState : JoinState) :
    Ptr × RoomRegistry :=
  match joinState with
  | JoinState.Invite =>
    match QHash.lookup w.invites roomId with
    | some i => (i, w)
    | none =>
      let i := w.nextPtr
      let prev :=
        match QHash.lookup w.rooms roomId with
        | some r => r.1
        | none => nullptr
      (i, { w with
            nextPtr := w.nextPtr + 1,
            invites := QHash.insert w.invites roomId i,
            emitted := w.emitted ++ [RoomSignal.newRoom i, RoomSignal.invitedRoom i prev] })
  | _ =>
    let prevInvite := QHash.lookup w.invites roomId
    let created : Option (Ptr × RoomRegistry) :=
      match QHash.lookup w.rooms roomId with
      | some r =>
        if r.2 = joinState ∧ prevInvite = none then none else some (r.1, w)
      | none =>
        some (w.nextPtr,
          { w with
            nextPtr := w.nextPtr + 1,
            emitted := w.emitted ++ [RoomSignal.newRoom w.nextPtr] })
    match created with
    | none =>
      match QHash.lookup w.rooms roomId with
      | some r => (r.1, w)
      | none => (nullptr, w)
    | some (room, w1) =>
      let w2 : RoomRegistry :=
        { w1 with
          rooms := QHash.insert w1.rooms roomId (room, joinState),
          emitted := w1.emitted ++
            [RoomSignal.transition joinState room (prevInvite.getD nullptr)] }
      match prevInvite with
      | some i =>
        (room, { w2 with
                 invites := QHash.remove w2.invites roomId,
                 emitted := w2.emitted ++ [RoomSignal.aboutToDeleteRoom i] })
      | none => (room, w2)

/-- A connection without rooms. -/
def noRooms : RoomRegistry :=
  { nextPtr := 1, invites := [], rooms := [], emitted := [] }

/-- A connection that has not logged in. -/
def disconnectedWorld : World :=
  { d := { data := { baseUrl := "https://matrix.org", token := "" },
           status := Status.Disconnected,
           username := "", password := "", userId := "",
           userMap := [], roomMap := [], syncJob := nullptr },
    nextPtr := 1,
    users := [], jobs := [], started := [], abandoned := [], connections := [],
    emitted := [] }

end Connection

end QMatrixClient

/-! ## Properties of the user registry, the login paths and the status -/

namespace QMatrixClient

open Connection

theorem QHash.insert_of_not_contains {V : Type} (h : QHash V) (key : String) (v : V)
    (hc : QHash.contains h key = false) : QHash.insert h key v = h ++ [(key, v)] := by
  simp [QHash.insert, hc]

theorem QHash.contains_append {V : Type} (h : QHash V) (e : String × V) (key : String) :
    QHash.contains (h ++ [e]) key = (QHash.contains h key || e.1 == key) := by
  simp [QHash.contains]

theorem QHash.value_append_of_contains {V : Type} [Inhabited V] (h : QHash V) (e : String × V)
    (key : String) (hc : QHash.contains h key = true) :
    QHash.value (h ++ [e]) key = QHash.value h key := by
  unfold QHash.value
  rw [List.find?_append]
  cases hf : h.find? (fun e => e.1 == key) with
  | some x => simp
  | none =>
    exfalso
    rw [List.find?_eq_none] at hf
    simp only [QHash.contains, List.any_eq_true] at hc
    obtain ⟨x, hx, hk⟩ := hc
    exact hf x hx hk

theorem QHash.value_append_self {V : Type} [Inhabited V] (h : QHash V) (key : String) (v : V)
    (hc : QHash.contains h key = false) : QHash.value (h ++ [(key, v)]) key = v := by
  unfold QHash.value
  rw [List.find?_append]
  have hf : h.find? (fun e => e.1 == key) = none := by
    rw [List.find?_eq_none]
    intro x hx hk
    have : QHash.contains h key = true := by
      simp only [QHash.contains, List.any_eq_true]
      exact ⟨x, hx, hk⟩
    rw [hc] at this
    exact Bool.noConfusion this
  simp [hf]

namespace Connection

theorem user_of_contains (w : World) (userId : String)
    (hc : QHash.contains w.d.userMap userId = true) :
    user w userId = (QHash.value w.d.userMap userId, w) := by
  simp [user, hc]

theorem user_of_not_contains (w : World) (userId : String)
    (hc : QHash.contains w.d.userMap userId = false) :
    user w userId =
      (w.nextPtr,
        { w with
          nextPtr := w.nextPtr + 1,
          users := w.users ++ [(w.nextPtr, userId)],
          d := { w.d with userMap := w.d.userMap ++ [(userId, w.nextPtr)] } }) := by
  simp [user, hc, createUser, QHash.insert_of_not_contains]

/-- A registered id stays registered, under the same object, across a call of
`user` with any id. -/
theorem user_preserves (w : World) (userId other : String) (u : Ptr)
    (hc : QHash.contains w.d.userMap userId = true)
    (hv : QHash.value w.d.userMap userId = u) :
    QHash.contains (user w other).2.d.userMap userId = true ∧
      QHash.value (user w other).2.d.userMap userId = u := by
  cases ho : QHash.contains w.d.userMap other with
  | true => rw [user_of_contains w other ho]; exact ⟨hc, hv⟩
  | false =>
    rw [user_of_not_contains w other ho]
    refine ⟨?_, ?_⟩
    · simp [QHash.contains_append, hc]
    · simpa [QHash.value_append_of_contains _ _ _ hc] using hv

theorem userCalls_preserves (others : List String) :
    ∀ (w : World) (userId : String) (u : Ptr),
      QHash.contains w.d.userMap userId = true →
      QHash.value w.d.userMap userId = u →
      QHash.contains (userCalls w others).d.userMap userId = true ∧
        QHash.value (userCalls w others).d.userMap userId = u := by
  induction others with
  | nil => intro w userId u hc hv; exact ⟨hc, hv⟩
  | cons o rest ih =>
    intro w userId u hc hv
    obtain ⟨hc1, hv1⟩ := user_preserves w userId o u hc hv
    exact ih (user w o).2 userId u hc1 hv1

theorem user_registers (w : World) (userId : String) :
    QHash.contains (user w userId).2.d.userMap userId = true ∧
      QHash.value (user w userId).2.d.userMap userId = (user w userId).1 := by
  cases hc : QHash.contains w.d.userMap userId with
  | true => rw [user_of_contains w userId hc]; exact ⟨hc, rfl⟩
  | false =>
    rw [user_of_not_contains w userId hc]
    refine ⟨?_, ?_⟩
    · simp [QHash.contains_append]
    · simpa using QHash.value_append_self w.d.userMap userId w.nextPtr hc

/-- C1: `Connection::user(userId)` is idempotent on the user registry. A
call with an id that the registry does not contain constructs exactly one
`User` (at the next free address) and registers it under that id; after any
call of `user(userId)`, and whatever further `user(...)` calls follow, a
later `user(userId)` returns the same object and leaves the whole state, the
registry and the constructed users included, as it was. -/
theorem user_idempotent (w : World) (userId : String) :
    (QHash.contains w.d.userMap userId = false →
      (user w userId).2.users = w.users ++ [((user w userId).1, userId)] ∧
      (user w userId).2.nextPtr = w.nextPtr + 1 ∧
      (user w userId).2.d.userMap = QHash.insert w.d.userMap userId (user w userId).1 ∧
      QHash.contains (user w userId).2.d.userMap userId = true ∧
      QHash.value (user w userId).2.d.userMap userId = (user w userId).1) ∧
    (∀ others : List String,
      user (userCalls (user w userId).2 others) userId =
        ((user w userId).1, userCalls (user w userId).2 others)) := by
  refine ⟨?_, ?_⟩
  · intro hc
    have hr := user_registers w userId
    refine ⟨?_, ?_, ?_, hr.1, hr.2⟩
    · rw [user_of_not_contains w userId hc]
    · rw [user_of_not_contains w userId hc]
    · rw [user_of_not_contains w userId hc]
      simp [QHash.insert_of_not_contains, hc]
  · intro others
    obtain ⟨hc, hv⟩ := user_registers w userId
    obtain ⟨hc1, hv1⟩ := userCalls_preserves others (user w userId).2 userId _ hc hv
    rw [user_of_contains _ userId hc1, hv1]

theorem user_idempotent_witness :
    QHash.contains sampleWorld.d.userMap "@bob:matrix.org" = false ∧
      (user sampleWorld "@bob:matrix.org").2.users =
        sampleWorld.users ++ [((user sampleWorld "@bob:matrix.org").1, "@bob:matrix.org")] ∧
      user (userCalls (user sampleWorld "@bob:matrix.org").2 ["@carol:matrix.org"])
          "@bob:matrix.org" =
        ((user sampleWorld "@bob:matrix.org").1,
          userCalls (user sampleWorld "@bob:matrix.org").2 ["@carol:matrix.org"]) :=
  ⟨by decide,
    ((user_idempotent sampleWorld "@bob:matrix.org").1 (by decide)).1,
    (user_idempotent sampleWorld "@bob:matrix.org").2 ["@carol:matrix.org"]⟩

theorem status_setStatus (w : World) (s : Status) : status (setStatus w s) = s := by
  unfold setStatus
  split
  · assumption
  · rfl

theorem setStatus_frame (w : World) (s : Status) :
    (setStatus w s).d.userId = w.d.userId ∧ (setStatus w s).d.data = w.d.data ∧
      (setStatus w s).jobs = w.jobs ∧ (setStatus w s).started = w.started ∧
      (setStatus w s).connections = w.connections ∧ (setStatus w s).nextPtr = w.nextPtr ∧
      (setStatus w s).abandoned = w.abandoned ∧
      (setStatus w s).d.username = w.d.username ∧ (setStatus w s).d.password = w.d.password := by
  unfold setStatus
  split <;> simp [emit]

theorem setStatus_emitted (w : World) (s : Status) :
    (setStatus w s).emitted =
      w.emitted ++ (if status w = s then [] else [Signal.statusChanged s]) := by
  unfold setStatus
  split <;> simp [emit, status]

/-- The only slot connected to the `result` signal of the job that
`invokeLogin` creates is the lambda of `invokeLogin`, and the job is a
started `PasswordLogin` job made from the stored user name and password. -/
theorem invokeLogin_wiring (w : World) (r : LoginReply) (hf : FreshNext w) :
    jobEmits (invokeLogin w) w.nextPtr JobSignal.result r = loginResult (invokeLogin w) r ∧
      (invokeLogin w).jobs =
        w.jobs ++ [⟨w.nextPtr, JobKind.PasswordLogin w.d.username w.d.password⟩] ∧
      (invokeLogin w).started = w.started ++ [w.nextPtr] := by
  have hnone : w.connections.filter
      (fun c => c.sender = w.nextPtr ∧ c.signal = JobSignal.result) = [] := by
    rw [List.filter_eq_nil_iff]
    intro c hc
    have := hf c hc
    simp only [decide_eq_true_eq, not_and]
    intro h
    exact absurd h (Nat.ne_of_lt this)
  have hconn : (invokeLogin w).connections =
      w.connections ++ [⟨w.nextPtr, JobSignal.result, Slot.loginResult⟩] := by
    unfold invokeLogin
    split <;> simp [newJob, startJob, connect, (setStatus_frame w _).2.2.2.2.1,
      (setStatus_frame w _).2.2.2.2.2.1]
  refine ⟨?_, ?_, ?_⟩
  · unfold jobEmits
    rw [hconn, List.filter_append, hnone]
    simp [runSlot]
  · unfold invokeLogin
    split <;> simp [newJob, startJob, connect, (setStatus_frame w _).2.2.1,
      (setStatus_frame w _).2.2.2.2.2.1, (setStatus_frame w _).2.2.2.2.2.2.2]
  · unfold invokeLogin
    split <;> simp [newJob, startJob, connect, (setStatus_frame w _).2.2.2.1,
      (setStatus_frame w _).2.2.2.2.2.1]

theorem loginResult_error (w : World) (r : LoginReply) (herr : r.error ≠ 0) :
    loginResult w r = emit (setStatus w Status.Failed) (Signal.loginError r.errorString) := by
  simp [loginResult, herr]

theorem connectWithToken_emitted (w : World) (userId token : String) :
    (connectWithToken w userId token).emitted =
      w.emitted ++ (if status w = Status.Connected then []
        else [Signal.statusChanged Status.Connected]) ++ [Signal.connected] := by
  simp [connectWithToken, emit, setStatus_emitted]

theorem connectWithToken_state (w : World) (userId token : String) :
    status (connectWithToken w userId token) = Status.Connected ∧
      (connectWithToken w userId token).d.userId = userId ∧
      (connectWithToken w userId token).d.data.token = token ∧
      (connectWithToken w userId token).jobs = w.jobs ∧
      (connectWithToken w userId token).started = w.started ∧
      (connectWithToken w userId token).connections = w.connections := by
  have hs := status_setStatus w Status.Connected
  have hf := setStatus_frame w Status.Connected
  simp only [status] at hs
  simp [connectWithToken, emit, status, hs, hf.2.2.1, hf.2.2.2.1, hf.2.2.2.2.1]

/-- C2: when the password login job finishes with an error, the slot of
`invokeLogin` leaves the status `Failed`, emits `loginError` with the error
string of the job (after `statusChanged(Failed)` when the status was not
`Failed` already) and nothing else, so neither `connected` nor
`reconnected`, and leaves the user id and the token as they were; and this
slot is what runs when the job started by a login emits `result`. -/
theorem login_error_fails (w : World) (r : LoginReply) (herr : r.error ≠ 0) :
    status (loginResult w r) = Status.Failed ∧
      (loginResult w r).emitted =
        w.emitted ++ (if status w = Status.Failed then []
          else [Signal.statusChanged Status.Failed]) ++ [Signal.loginError r.errorString] ∧
      Signal.loginError r.errorString ∈ (loginResult w r).emitted.drop w.emitted.length ∧
      Signal.connected ∉ (loginResult w r).emitted.drop w.emitted.length ∧
      Signal.reconnected ∉ (loginResult w r).emitted.drop w.emitted.length ∧
      userId (loginResult w r) = userId w ∧
      token (loginResult w r) = token w ∧
      (FreshNext w →
        jobEmits (invokeLogin w) w.nextPtr JobSignal.result r =
          loginResult (invokeLogin w) r) := by
  have he : (loginResult w r).emitted =
      w.emitted ++ ((if status w = Status.Failed then []
        else [Signal.statusChanged Status.Failed]) ++ [Signal.loginError r.errorString]) := by
    rw [loginResult_error w r herr]
    simp [emit, setStatus_emitted]
  have hf := setStatus_frame w Status.Failed
  refine ⟨?_, ?_, ?_, ?_, ?_, ?_, ?_, ?_⟩
  · rw [loginResult_error w r herr]
    exact status_setStatus w Status.Failed
  · rw [he, List.append_assoc]
  · rw [he, List.drop_left]
    simp
  · rw [he, List.drop_left]
    split <;> simp
  · rw [he, List.drop_left]
    split <;> simp
  · rw [loginResult_error w r herr]
    simp [userId, emit, hf.1]
  · rw [loginResult_error w r herr]
    simp [token, emit, hf.2.1]
  · intro hfresh
    exact (invokeLogin_wiring w r hfresh).1

theorem login_error_fails_witness :
    sampleError.error ≠ 0 ∧ FreshNext sampleWorld ∧
      status (loginResult sampleWorld sampleError) = Status.Failed ∧
      (loginResult sampleWorld sampleError).emitted =
        sampleWorld.emitted ++ (if status sampleWorld = Status.Failed then []
          else [Signal.statusChanged Status.Failed]) ++
          [Signal.loginError sampleError.errorString] ∧
      jobEmits (invokeLogin sampleWorld) sampleWorld.nextPtr JobSignal.result sampleError =
        loginResult (invokeLogin sampleWorld) sampleError :=
  ⟨by decide, by decide,
    (login_error_fails sampleWorld sampleError (by decide)).1,
    (login_error_fails sampleWorld sampleError (by decide)).2.1,
    (login_error_fails sampleWorld sampleError (by decide)).2.2.2.2.2.2.2 (by decide)⟩

/-- C3: when the password login job finishes without error, the slot of
`invokeLogin` leaves the status `Connected`, `userId()` equal to the id and
`token()` equal to the token that the job returns, and emits `connected`;
and this slot is what runs when the job started by a login emits
`result`. -/
theorem login_success_connects (w : World) (r : LoginReply) (hok : r.error = 0) :
    status (loginResult w r) = Status.Connected ∧
      userId (loginResult w r) = r.id ∧
      token (loginResult w r) = r.token ∧
      Signal.connected ∈ (loginResult w r).emitted.drop w.emitted.length ∧
      (FreshNext w →
        jobEmits (invokeLogin w) w.nextPtr JobSignal.result r =
          loginResult (invokeLogin w) r) := by
  have hc := connectWithToken_state w r.id r.token
  have he := connectWithToken_emitted w r.id r.token
  have hl : loginResult w r =
      emit (connectWithToken w r.id r.token)
        (if status w = Status.Reconnecting then Signal.reconnected else Signal.connected) := by
    by_cases hs : status w = Status.Reconnecting <;> simp [loginResult, hok, hs]
  refine ⟨?_, ?_, ?_, ?_, ?_⟩
  · rw [hl]; simpa [emit, status] using hc.1
  · rw [hl]; simpa [emit, userId] using hc.2.1
  · rw [hl]; simpa [emit, token] using hc.2.2.1
  · rw [hl]
    simp only [emit, he, List.append_assoc, List.drop_left]
    simp
  · intro hfresh
    exact (invokeLogin_wiring w r hfresh).1

theorem login_success_connects_witness :
    sampleReply.error = 0 ∧ FreshNext sampleWorld ∧
      status (loginResult sampleWorld sampleReply) = Status.Connected ∧
      userId (loginResult sampleWorld sampleReply) = sampleReply.id ∧
      token (loginResult sampleWorld sampleReply) = sampleReply.token ∧
      Signal.connected ∈
        (loginResult sampleWorld sampleReply).emitted.drop sampleWorld.emitted.length ∧
      jobEmits (invokeLogin sampleWorld) sampleWorld.nextPtr JobSignal.result sampleReply =
        loginResult (invokeLogin sampleWorld) sampleReply :=
  ⟨by decide, by decide,
    (login_success_connects sampleWorld sampleReply (by decide)).1,
    (login_success_connects sampleWorld sampleReply (by decide)).2.1,
    (login_success_connects sampleWorld sampleReply (by decide)).2.2.1,
    (login_success_connects sampleWorld sampleReply (by decide)).2.2.2.1,
    (login_success_connects sampleWorld sampleReply (by decide)).2.2.2.2 (by decide)⟩

theorem status_invokeLogin (w : World) :
    status (invokeLogin w) =
      if status w = Status.Disconnected then Status.Connecting else Status.Reconnecting := by
  unfold invokeLogin
  split
  · have h := status_setStatus w Status.Connecting
    simpa [newJob, startJob, connect, status] using h
  · have h := status_setStatus w Status.Reconnecting
    simpa [newJob, startJob, connect, status] using h

/-- C4: starting a login, by `connectToServer` or by `reconnect`, sets the
status to `Connecting` if and only if the status before the call was
`Disconnected`; from every other status it sets the status to
`Reconnecting`. -/
theorem login_start_status (w : World) (user password : String) :
    (status (connectToServer w user password) = Status.Connecting ↔
        status w = Status.Disconnected) ∧
      (status (reconnect w) = Status.Connecting ↔ status w = Status.Disconnected) ∧
      status (connectToServer w user password) =
        (if status w = Status.Disconnected then Status.Connecting else Status.Reconnecting) ∧
      status (reconnect w) =
        (if status w = Status.Disconnected then Status.Connecting else Status.Reconnecting) := by
  have h1 : status (connectToServer w user password) =
      (if status w = Status.Disconnected then Status.Connecting else Status.Reconnecting) := by
    unfold connectToServer
    rw [status_invokeLogin]
    rfl
  have h2 : status (reconnect w) =
      (if status w = Status.Disconnected then Status.Connecting else Status.Reconnecting) :=
    status_invokeLogin w
  refine ⟨?_, ?_, h1, h2⟩
  · rw [h1]; split <;> simp_all
  · rw [h2]; split <;> simp_all

/-- C5: `connectWithToken(userId, token)` creates no job, starts none and
connects to none, and from every prior status leaves `status()` equal to
`Connected`, `isConnected()` true, `userId()` equal to `userId` and `token()`
equal to `token`. -/
theorem connectWithToken_connected (w : World) (uid tok : String) :
    (connectWithToken w uid tok).jobs = w.jobs ∧
      (connectWithToken w uid tok).started = w.started ∧
      (connectWithToken w uid tok).connections = w.connections ∧
      status (connectWithToken w uid tok) = Status.Connected ∧
      isConnected (connectWithToken w uid tok) = true ∧
      userId (connectWithToken w uid tok) = uid ∧
      token (connectWithToken w uid tok) = tok := by
  have hc := connectWithToken_state w uid tok
  refine ⟨hc.2.2.2.1, hc.2.2.2.2.1, hc.2.2.2.2.2, hc.1, ?_, hc.2.1, hc.2.2.1⟩
  have := hc.1
  simp only [status] at this
  simp [isConnected, this]

theorem logout_eq (w : World) :
    logout w =
      { w with
        nextPtr := w.nextPtr + 1,
        jobs := w.jobs ++ [⟨w.nextPtr, JobKind.LogoutJob⟩],
        connections := w.connections ++ [⟨w.nextPtr, JobSignal.success, Slot.loggedOut⟩],
        started := w.started ++ [w.nextPtr] } := by
  simp [logout, newJob, connect, startJob]

/-- A job whose only connection is the one made by `logout`: each signal it
emits adds `loggedOut` to the emitted signals when it is `success`, and
changes nothing otherwise. -/
theorem jobEmits_logout_job (v : World) (job : Ptr) (signal : JobSignal) (r : LoginReply)
    (cs : List JobConnection) (hcs : ∀ c ∈ cs, c.sender ≠ job)
    (hv : v.connections = cs ++ [⟨job, JobSignal.success, Slot.loggedOut⟩]) :
    jobEmits v job signal r =
      { v with emitted := v.emitted ++
          (if signal = JobSignal.success then [Signal.loggedOut] else []) } := by
  have hnone : cs.filter (fun c => c.sender = job ∧ c.signal = signal) = [] := by
    rw [List.filter_eq_nil_iff]
    intro c hc
    have := hcs c hc
    simp only [decide_eq_true_eq, not_and]
    intro h
    exact absurd h this
  have hfilter : v.connections.filter (fun c => c.sender = job ∧ c.signal = signal) =
      if signal = JobSignal.success then [⟨job, JobSignal.success, Slot.loggedOut⟩] else [] := by
    rw [hv, List.filter_append, hnone]
    cases signal <;> simp
  unfold jobEmits
  rw [hfilter]
  cases signal <;> simp [runSlot, emit]

theorem jobEmitsAll_logout_job (signals : List JobSignal) :
    ∀ (v : World) (job : Ptr) (r : LoginReply) (cs : List JobConnection),
      (∀ c ∈ cs, c.sender ≠ job) →
      v.connections = cs ++ [⟨job, JobSignal.success, Slot.loggedOut⟩] →
      jobEmitsAll v job r signals =
        { v with emitted := v.emitted ++
            List.replicate (signals.count JobSignal.success) Signal.loggedOut } := by
  induction signals with
  | nil => intro v job r cs _ _; simp [jobEmitsAll]
  | cons sg rest ih =>
    intro v job r cs hcs hv
    have h1 := jobEmits_logout_job v job sg r cs hcs hv
    have h2 := ih (jobEmits v job sg r) job r cs hcs (by rw [h1]; exact hv)
    simp only [jobEmitsAll]
    rw [h2, h1]
    cases sg <;> simp [List.replicate_succ]

theorem fresh_senders (w : World) (hf : FreshNext w) :
    ∀ c ∈ w.connections, c.sender ≠ w.nextPtr := by
  intro c hc
  exact Nat.ne_of_lt (hf c hc)

/-- The amended C6: `logout()` does not touch the status. After `logout()`,
and also after the logout job has emitted any of its signals, `status()` is
what it was before the call. -/
theorem logout_keeps_status (w : World) :
    status (logout w) = status w ∧
      (FreshNext w → ∀ (signals : List JobSignal) (r : LoginReply),
        status (jobEmitsAll (logout w) w.nextPtr r signals) = status w) := by
  refine ⟨?_, ?_⟩
  · rw [logout_eq]; rfl
  · intro hf signals r
    rw [jobEmitsAll_logout_job signals (logout w) w.nextPtr r w.connections
      (fresh_senders w hf) (by rw [logout_eq])]
    rw [logout_eq]; rfl

theorem logout_keeps_status_witness :
    FreshNext sampleWorld ∧
      status (jobEmitsAll (logout sampleWorld) sampleWorld.nextPtr sampleReply
        [JobSignal.result, JobSignal.success]) = status sampleWorld :=
  ⟨by decide,
    (logout_keeps_status sampleWorld).2 (by decide) [JobSignal.result, JobSignal.success]
      sampleReply⟩

/-- C6 fails as stated: a connected connection is still `Connected`, not
`Disconnected`, after `logout()`, and also after the logout job has
reported success. -/
theorem logout_status_counterexample :
    status sampleWorld = Status.Connected ∧
      status (logout sampleWorld) ≠ Status.Disconnected ∧
      status (jobEmitsAll (logout sampleWorld) 3 sampleReply
        [JobSignal.result, JobSignal.success]) ≠ Status.Disconnected := by
  decide

/-- C7: `logout()` constructs exactly one job, a `LogoutJob`, and starts it,
emitting nothing itself; afterwards `loggedOut` is emitted once for each
`success` signal of that job and for no other signal of it, so a job that
reports `result` and `failure` only never causes `loggedOut`. -/
theorem logout_job_and_signal (w : World) :
    (logout w).jobs = w.jobs ++ [⟨w.nextPtr, JobKind.LogoutJob⟩] ∧
      (logout w).started = w.started ++ [w.nextPtr] ∧
      (logout w).emitted = w.emitted ∧
      (FreshNext w → ∀ (signals : List JobSignal) (r : LoginReply),
        (jobEmitsAll (logout w) w.nextPtr r signals).emitted =
          w.emitted ++ List.replicate (signals.count JobSignal.success) Signal.loggedOut) := by
  refine ⟨?_, ?_, ?_, ?_⟩
  · rw [logout_eq]
  · rw [logout_eq]
  · rw [logout_eq]
  · intro hf signals r
    rw [jobEmitsAll_logout_job signals (logout w) w.nextPtr r w.connections
      (fresh_senders w hf) (by rw [logout_eq])]
    rw [logout_eq]

theorem logout_job_and_signal_witness :
    FreshNext sampleWorld ∧
      (jobEmitsAll (logout sampleWorld) sampleWorld.nextPtr sampleReply
          [JobSignal.result, JobSignal.success]).emitted =
        sampleWorld.emitted ++ [Signal.loggedOut] ∧
      (jobEmitsAll (logout sampleWorld) sampleWorld.nextPtr sampleError
          [JobSignal.result, JobSignal.failure]).emitted =
        sampleWorld.emitted :=
  ⟨by decide,
    (logout_job_and_signal sampleWorld).2.2.2 (by decide)
      [JobSignal.result, JobSignal.success] sampleReply,
    by
      simpa using
        ((logout_job_and_signal sampleWorld).2.2.2 (by decide)
          [JobSignal.result, JobSignal.failure] sampleError)⟩

/-- C8: `disconnectFromServer()`, called while `d->syncJob` points to a job,
returns, calls `abandon()` on that job and on no other, and leaves
`status()` equal to `Disconnected` and `isConnected()` false, from every
prior status; the user id and the token are unchanged. -/
theorem disconnect_abandons_sync (w : World) (hjob : w.d.syncJob ≠ nullptr) :
    ∃ v, disconnectFromServer w = some v ∧
      v.abandoned = w.abandoned ++ [w.d.syncJob] ∧
      status v = Status.Disconnected ∧
      isConnected v = false ∧
      userId v = userId w ∧
      token v = token w := by
  refine ⟨setStatus { w with abandoned := w.abandoned ++ [w.d.syncJob] } Status.Disconnected,
    ?_, ?_, ?_, ?_, ?_, ?_⟩
  · simp [disconnectFromServer, hjob]
  · exact (setStatus_frame _ _).2.2.2.2.2.2.1
  · exact status_setStatus _ _
  · have h := status_setStatus { w with abandoned := w.abandoned ++ [w.d.syncJob] }
      Status.Disconnected
    simp only [status] at h
    simp [isConnected, h]
  · simp only [userId]
    exact (setStatus_frame _ _).1
  · simp only [token]
    rw [(setStatus_frame _ _).2.1]

theorem disconnect_abandons_sync_witness :
    sampleWorld.d.syncJob ≠ nullptr ∧
      ∃ v, disconnectFromServer sampleWorld = some v ∧
        v.abandoned = sampleWorld.abandoned ++ [sampleWorld.d.syncJob] ∧
        status v = Status.Disconnected ∧
        isConnected v = false ∧
        userId v = userId sampleWorld ∧
        token v = token sampleWorld :=
  ⟨by decide, disconnect_abandons_sync sampleWorld (by decide)⟩

/-- C9: `statusChanged` is emitted exactly when the status really changes.
`setStatus(s)` with `s` equal to the current status changes nothing and
emits nothing; `setStatus(s)` with `s` different from the current status
sets `status()` to `s` and emits `statusChanged(s)` once and nothing
else. -/
theorem setStatus_signals_change (w : World) (s : Status) :
    (status w = s → setStatus w s = w) ∧
      (status w ≠ s →
        status (setStatus w s) = s ∧
        (setStatus w s).emitted = w.emitted ++ [Signal.statusChanged s]) := by
  refine ⟨?_, ?_⟩
  · intro h
    simp [setStatus, h]
  · intro h
    refine ⟨status_setStatus w s, ?_⟩
    rw [setStatus_emitted]
    simp [h]

theorem setStatus_signals_change_witness :
    (status sampleWorld = Status.Connected ∧
        setStatus sampleWorld Status.Connected = sampleWorld) ∧
      (status sampleWorld ≠ Status.Failed ∧
        status (setStatus sampleWorld Status.Failed) = Status.Failed ∧
        (setStatus sampleWorld Status.Failed).emitted =
          sampleWorld.emitted ++ [Signal.statusChanged Status.Failed]) :=
  ⟨⟨by decide, (setStatus_signals_change sampleWorld Status.Connected).1 (by decide)⟩,
    ⟨by decide, (setStatus_signals_change sampleWorld Status.Failed).2 (by decide)⟩⟩

end Connection

end QMatrixClient

/-! ## Properties of `connectSingleShot` -/

namespace QMatrixClient

end QMatrixClient

/-! ## Properties of `callApi` and of the generated jobs -/

namespace QMatrixClient

/-- C11: `callApi` starts the job with the background flag set if and only
if the running policy is `BackgroundRequest`, and the overload without a
policy is `callApi` with `ForegroundRequest`, so it starts the job with the
flag false, for every type of job arguments and every argument value. -/
theorem callApi_background_flag {JobArgTs : Type} (w : ApiJobs JobArgTs)
    (runningPolicy : RunningPolicy) (jobArgs : JobArgTs) :
    (Connection.callApi w runningPolicy jobArgs).1 = w.nextPtr ∧
      (Connection.callApi w runningPolicy jobArgs).2.constructed =
        w.constructed ++ [(w.nextPtr, jobArgs)] ∧
      (Connection.callApi w runningPolicy jobArgs).2.started =
        w.started ++ [(w.nextPtr, decide (runningPolicy = RunningPolicy.BackgroundRequest))] ∧
      Connection.callApiForeground w jobArgs =
        Connection.callApi w RunningPolicy.ForegroundRequest jobArgs ∧
      (Connection.callApiForeground w jobArgs).2.started = w.started ++ [(w.nextPtr, false)] := by
  refine ⟨rfl, rfl, ?_, rfl, ?_⟩
  · cases runningPolicy <;> simp [Connection.callApi, RunningPolicy.toNat]
  · simp [Connection.callApiForeground, Connection.callApi, RunningPolicy.toNat]

/-- C12: `GetNotificationsJob::parseJson` returns `Success` if and only if
the response object contains the key `notifications`; for every response
object without that key it returns a status that is not `Success` and carries
the message `The key 'notifications' not found in the response`. -/
theorem parseJson_success_iff {EventPtr : Type} (fromJsonEvent : QJsonValue → EventPtr)
    (d : GetNotificationsJob.Private EventPtr) (data : QJsonDocument) :
    ((GetNotificationsJob.parseJson fromJsonEvent d data).1 =
        BaseJob.Status.ofCode StatusCode.Success ↔
      QJsonObject.contains data.toObject "notifications" = true) ∧
    ((GetNotificationsJob.parseJson fromJsonEvent d data).1.code = StatusCode.Success ↔
      QJsonObject.contains data.toObject "notifications" = true) ∧
    (QJsonObject.contains data.toObject "notifications" = false →
      (GetNotificationsJob.parseJson fromJsonEvent d data).1.code ≠ StatusCode.Success ∧
      (GetNotificationsJob.parseJson fromJsonEvent d data).1.message =
        "The key \x27notifications\x27 not found in the response") := by
  cases h : QJsonObject.contains data.toObject "notifications" <;>
    simp [GetNotificationsJob.parseJson, h, BaseJob.Status.ofCode,
      GetNotificationsJob.missingKeyMessage]

theorem parseJson_success_iff_witness :
    QJsonObject.contains (QJsonDocument.object []).toObject "notifications" = false ∧
      (GetNotificationsJob.parseJson (fun jv => jv) ⟨"", []⟩ (QJsonDocument.object [])).1.code ≠
        StatusCode.Success ∧
      (GetNotificationsJob.parseJson (fun jv => jv) ⟨"", []⟩ (QJsonDocument.object [])).1.message =
        "The key \x27notifications\x27 not found in the response" :=
  ⟨by decide,
    (parseJson_success_iff (fun jv => jv) ⟨"", []⟩ (QJsonDocument.object [])).2.2 (by decide)⟩

/-- The amended C13: the status that `GetNotificationsJob::parseJson` returns
for a response lacking `notifications` has kind `JsonParseError`, which is
not the kind `IncorrectResponseError`. -/
theorem parseJson_missing_key_kind {EventPtr : Type} (fromJsonEvent : QJsonValue → EventPtr)
    (d : GetNotificationsJob.Private EventPtr) (data : QJsonDocument)
    (hmissing : QJsonObject.contains data.toObject "notifications" = false) :
    (GetNotificationsJob.parseJson fromJsonEvent d data).1.code = StatusCode.JsonParseError ∧
      (GetNotificationsJob.parseJson fromJsonEvent d data).1.code ≠
        StatusCode.IncorrectResponseError := by
  simp [GetNotificationsJob.parseJson, hmissing]

theorem parseJson_missing_key_kind_witness :
    QJsonObject.contains
        (QJsonDocument.object [("next_token", QJsonValue.string "t")]).toObject
        "notifications" = false ∧
      (GetNotificationsJob.parseJson (fun jv => jv) ⟨"", []⟩
        (QJsonDocument.object [("next_token", QJsonValue.string "t")])).1.code =
        StatusCode.JsonParseError :=
  ⟨by decide,
    (parseJson_missing_key_kind (fun jv => jv) ⟨"", []⟩
      (QJsonDocument.object [("next_token", QJsonValue.string "t")]) (by decide)).1⟩

/-- C13 fails as stated: for the empty response object, which lacks
`notifications`, `GetNotificationsJob::parseJson` yields a status whose kind
is `JsonParseError` and not `IncorrectResponseError`. -/
theorem parseJson_kind_counterexample :
    QJsonObject.contains (QJsonDocument.object []).toObject "notifications" = false ∧
      (GetNotificationsJob.parseJson (fun jv => jv) ⟨"", []⟩ (QJsonDocument.object [])).1.code =
        StatusCode.JsonParseError ∧
      (GetNotificationsJob.parseJson (fun jv => jv) ⟨"", []⟩ (QJsonDocument.object [])).1.code ≠
        StatusCode.IncorrectResponseError := by
  decide

theorem digitChar_decimal (k : Nat) (hk : k < 10) :
    (Nat.digitChar k).isDigit = true ∧ (Nat.digitChar k).toNat - '0'.toNat = k ∧
      (Nat.digitChar k = '0' → k = 0) := by
  interval_cases k <;> exact ⟨by decide, by decide, by decide⟩

theorem decimalValue_append (xs : List Char) (d : Char) :
    decimalValue (xs ++ [d]) = 10 * decimalValue xs + (d.toNat - '0'.toNat) := by
  simp [decimalValue, List.foldl_append]

/-- The digits that `Nat.toDigitsCore` puts in front of its accumulator are
the decimal notation of the number. -/
theorem toDigitsCore_decimal (fuel : Nat) :
    ∀ (n : Nat) (ds : List Char), n < fuel →
      ∃ xs : List Char, Nat.toDigitsCore 10 fuel n ds = xs ++ ds ∧
        isDecimalDigits xs n = true := by
  induction fuel with
  | zero => intro n ds h; omega
  | succ fuel ih =>
    intro n ds hn
    have hd := digitChar_decimal (n % 10) (Nat.mod_lt n (by omega))
    unfold Nat.toDigitsCore
    by_cases h0 : n / 10 = 0
    · simp only [h0, if_true]
      refine ⟨[Nat.digitChar (n % 10)], rfl, ?_⟩
      have hlt : n < 10 := by omega
      have hv : decimalValue [Nat.digitChar (n % 10)] = n := by
        simp only [decimalValue, List.foldl_cons, List.foldl_nil, hd.2.1]
        omega
      simp [isDecimalDigits, hd.1, hv]
    · simp only [h0, if_false]
      obtain ⟨xs, hxs, hdec⟩ := ih (n / 10) (Nat.digitChar (n % 10) :: ds) (by omega)
      refine ⟨xs ++ [Nat.digitChar (n % 10)], by rw [hxs]; simp, ?_⟩
      cases xs with
      | nil => simp [isDecimalDigits] at hdec
      | cons x rest =>
        simp only [isDecimalDigits, Bool.and_eq_true, Bool.or_eq_true, beq_iff_eq,
          bne_iff_ne, ne_eq, List.isEmpty_iff] at hdec
        obtain ⟨⟨hall, hlead⟩, hval⟩ := hdec
        have hx0 : x ≠ '0' := by
          rcases hlead with h | h
          · exact h
          · intro hx
            rw [h, hx] at hval
            have : decimalValue ['0'] = 0 := by decide
            omega
        have hv : decimalValue (x :: rest ++ [Nat.digitChar (n % 10)]) = n := by
          rw [decimalValue_append, hval, hd.2.1]
          omega
        have hall2 : (x :: rest ++ [Nat.digitChar (n % 10)]).all Char.isDigit = true := by
          rw [List.all_append, hall]
          simp [hd.1]
        have hv2 : decimalValue (x :: (rest ++ [Nat.digitChar (n % 10)])) = n := hv
        have hall3 : (x :: (rest ++ [Nat.digitChar (n % 10)])).all Char.isDigit = true := hall2
        simp only [List.cons_append, isDecimalDigits, hall3, hv2, Bool.and_eq_true,
          Bool.or_eq_true, beq_iff_eq, bne_iff_ne, ne_eq, true_and, and_true]
        exact Or.inl hx0

theorem argInt_ofNat (n : Nat) : isDecimalDigits (argInt (Int.ofNat n)).data n = true := by
  obtain ⟨xs, hxs, hdec⟩ := toDigitsCore_decimal (n + 1) n [] (by omega)
  have : (argInt (Int.ofNat n)).data = xs := by
    show (Nat.toDigits 10 n).asString.data = xs
    simp [Nat.toDigits, hxs, List.asString]
  rw [this]
  exact hdec

theorem argInt_negSucc (m : Nat) :
    argInt (Int.negSucc m) = "-" ++ argInt (Int.ofNat (m + 1)) := rfl

/-- The text that `argInt` yields is the decimal notation of the number. -/
theorem argInt_decimal (n : Int) : isDecimalOf (argInt n) n = true := by
  cases n with
  | ofNat m =>
    have h : ¬ (Int.ofNat m < 0) := by simp
    simp only [isDecimalOf, h, if_false]
    exact argInt_ofNat m
  | negSucc m =>
    have h : Int.negSucc m < 0 := Int.negSucc_lt_zero m
    have hn : (-(Int.negSucc m)).toNat = m + 1 := by
      simp [Int.neg_negSucc]
    have hdata : (argInt (Int.negSucc m)).data = '-' :: (argInt (Int.ofNat (m + 1))).data := by
      rw [argInt_negSucc, String.data_append]
      rfl
    simp only [isDecimalOf, h, if_true, hdata, hn, beq_self_eq_true, Bool.true_and]
    exact argInt_ofNat (m + 1)

/-- C14: for every room id, event id and limit, `GetEventContextJob` requests
the path `/_matrix/client/r0/rooms/<roomId>/context/<eventId>` with verb GET;
its query is empty when the limit is omitted and is the single item `limit`
with the decimal value when it is present: the value is the decimal notation
of the limit, digits `0` to `9` that denote the number, without a leading
zero and after a minus sign when the limit is negative, so `10`, `0` and
`-3` for the limits ten, zero and minus three; `makeRequestUrl` uses the
same path and the same query as the constructor. -/
theorem getEventContext_request (baseUrl roomId eventId : String) (limit : Omittable Int) :
    (GetEventContextJob.new roomId eventId limit).verb = HttpVerb.Get ∧
      (GetEventContextJob.new roomId eventId limit).endpoint =
        "/_matrix/client/r0/rooms/" ++ roomId ++ "/context/" ++ eventId ∧
      (GetEventContextJob.new roomId eventId none).query = [] ∧
      (∀ n : Int, (GetEventContextJob.new roomId eventId (some n)).query =
        [("limit", argInt n)]) ∧
      (GetEventContextJob.makeRequestUrl baseUrl roomId eventId limit).path =
        (GetEventContextJob.new roomId eventId limit).endpoint ∧
      (GetEventContextJob.makeRequestUrl baseUrl roomId eventId limit).query =
        (GetEventContextJob.new roomId eventId limit).query ∧
      (∀ n : Int, ∃ value : String,
        (GetEventContextJob.new roomId eventId (some n)).query = [("limit", value)] ∧
          isDecimalOf value n = true) ∧
      (GetEventContextJob.new roomId eventId (some 10)).query = [("limit", "10")] ∧
      (GetEventContextJob.new roomId eventId (some 0)).query = [("limit", "0")] ∧
      (GetEventContextJob.new roomId eventId (some (-3))).query = [("limit", "-3")] ∧
      (GetEventContextJob.makeRequestUrl baseUrl roomId eventId (some 250)).query =
        [("limit", "250")] := by
  have h10 : argInt 10 = "10" := by decide
  have h0 : argInt 0 = "0" := by decide
  have h3 : argInt (-3) = "-3" := by decide
  have h250 : argInt 250 = "250" := by decide
  refine ⟨rfl, ?_, rfl, fun n => rfl, rfl, rfl, fun n => ⟨argInt n, rfl, argInt_decimal n⟩,
    ?_, ?_, ?_, ?_⟩
  · have h : basePath ++ "/rooms/" = "/_matrix/client/r0/rooms/" := by decide
    simp only [GetEventContextJob.new, ← h]
  · rw [← h10]; rfl
  · rw [← h0]; rfl
  · rw [← h3]; rfl
  · rw [← h250]; rfl

/-- C15: for every `from`, `limit` and `only`, the query built for
`GetNotificationsJob` has the item `from` if and only if `from` is not
empty, always has exactly one item `limit`, whose value is the decimal
rendering of `limit`, has the item `only` if and only if `only` is not
empty, and lists its items in the order `from`, `limit`, `only`. The value
of `limit` is the decimal notation of the number, digits `0` to `9` that
denote it, without a leading zero and after a minus sign when it is
negative: `25` for twenty-five, `0` for zero and `-7` for minus seven. -/
theorem queryToGetNotifications_items (from_ only : String) (limit : Int) :
    GetNotificationsJob.queryToGetNotifications from_ limit only =
        (if from_.isEmpty then [] else [("from", from_)]) ++ [("limit", argInt limit)] ++
          (if only.isEmpty then [] else [("only", only)]) ∧
      QUrlQuery.hasQueryItem (GetNotificationsJob.queryToGetNotifications from_ limit only)
        "from" = !from_.isEmpty ∧
      QUrlQuery.allQueryItemValues (GetNotificationsJob.queryToGetNotifications from_ limit only)
        "limit" = [argInt limit] ∧
      QUrlQuery.hasQueryItem (GetNotificationsJob.queryToGetNotifications from_ limit only)
        "only" = !only.isEmpty ∧
      (GetNotificationsJob.new from_ limit only).query =
        GetNotificationsJob.queryToGetNotifications from_ limit only ∧
      (∃ value : String,
        QUrlQuery.allQueryItemValues
            (GetNotificationsJob.queryToGetNotifications from_ limit only) "limit" = [value] ∧
          isDecimalOf value limit = true) ∧
      QUrlQuery.allQueryItemValues (GetNotificationsJob.queryToGetNotifications from_ 25 only)
        "limit" = ["25"] ∧
      QUrlQuery.allQueryItemValues (GetNotificationsJob.queryToGetNotifications from_ 0 only)
        "limit" = ["0"] ∧
      QUrlQuery.allQueryItemValues (GetNotificationsJob.queryToGetNotifications from_ (-7) only)
        "limit" = ["-7"] ∧
      GetNotificationsJob.queryToGetNotifications "t4" 25 "highlight" =
        [("from", "t4"), ("limit", "25"), ("only", "highlight")] ∧
      GetNotificationsJob.queryToGetNotifications "" 100 "" = [("limit", "100")] := by
  have h1 : ("limit" == "from") = false := by decide
  have h2 : ("only" == "from") = false := by decide
  have h3 : ("from" == "limit") = false := by decide
  have h4 : ("only" == "limit") = false := by decide
  have h5 : ("from" == "only") = false := by decide
  have h6 : ("limit" == "only") = false := by decide
  have hvalue : ∀ n : Int,
      QUrlQuery.allQueryItemValues (GetNotificationsJob.queryToGetNotifications from_ n only)
        "limit" = [argInt n] := by
    intro n
    cases hf : from_.isEmpty <;> cases ho : only.isEmpty <;>
      simp [GetNotificationsJob.queryToGetNotifications,
        QUrlQuery.addQueryItem, QUrlQuery.allQueryItemValues,
        hf, ho, h3, h4, List.filter_cons]
  have h25 : argInt 25 = "25" := by decide
  have h0 : argInt 0 = "0" := by decide
  have h7 : argInt (-7) = "-7" := by decide
  refine ⟨?_, ?_, hvalue limit, ?_, ?_, ⟨argInt limit, hvalue limit, argInt_decimal limit⟩,
    ?_, ?_, ?_, by decide, by decide⟩
  · cases hf : from_.isEmpty <;> cases ho : only.isEmpty <;>
      simp [GetNotificationsJob.queryToGetNotifications, QUrlQuery.addQueryItem, hf, ho]
  · cases hf : from_.isEmpty <;> cases ho : only.isEmpty <;>
      simp [GetNotificationsJob.queryToGetNotifications, QUrlQuery.addQueryItem,
        QUrlQuery.hasQueryItem, hf, ho, h1, h2]
  · cases hf : from_.isEmpty <;> cases ho : only.isEmpty <;>
      simp [GetNotificationsJob.queryToGetNotifications, QUrlQuery.addQueryItem,
        QUrlQuery.hasQueryItem, hf, ho, h5, h6]
  · rfl
  · rw [← h25]; exact hvalue 25
  · rw [← h0]; exact hvalue 0
  · rw [← h7]; exact hvalue (-7)

/-- C16: the `UploadDeviceKeys` job is a POST whose endpoint, written
relative to the server root, is `keys/upload` under the unstable base
`/_matrix/client/unstable`; its body has exactly the four keys `algorithms`,
`device_id`, `keys` and `user_id`, where `device_id`, `keys` and `user_id`
are `deviceId()`, `publicIdentityKeys()` and `userId()` of the encryption
manager and `algorithms` is the array of `m.olm.v1.curve25519-aes-sha2` and
`m.megolm.v1.aes-sha2`, in that order. -/
theorem uploadDeviceKeys_request (em : EncryptionManager) :
    (UploadDeviceKeys.new em).verb = HttpVerb.Post ∧
      (UploadDeviceKeys.new em).endpoint = "_matrix/client/unstable/keys/upload" ∧
      "/" ++ (UploadDeviceKeys.new em).endpoint = "/_matrix/client/unstable" ++ "/keys/upload" ∧
      (UploadDeviceKeys.new em).data.map (fun e => e.1) =
        ["algorithms", "device_id", "keys", "user_id"] ∧
      QJsonObject.value (UploadDeviceKeys.new em).data "device_id" =
        QJsonValue.string em.deviceId ∧
      QJsonObject.value (UploadDeviceKeys.new em).data "keys" =
        QJsonValue.object em.publicIdentityKeys ∧
      QJsonObject.value (UploadDeviceKeys.new em).data "user_id" =
        QJsonValue.string em.userId ∧
      QJsonObject.value (UploadDeviceKeys.new em).data "algorithms" =
        QJsonValue.array [QJsonValue.string "m.olm.v1.curve25519-aes-sha2",
          QJsonValue.string "m.megolm.v1.aes-sha2"] := by
  have hdata : (UploadDeviceKeys.new em).data =
      [("algorithms", QJsonValue.array [QJsonValue.string "m.olm.v1.curve25519-aes-sha2",
          QJsonValue.string "m.megolm.v1.aes-sha2"]),
        ("device_id", QJsonValue.string em.deviceId),
        ("keys", QJsonValue.object em.publicIdentityKeys),
        ("user_id", QJsonValue.string em.userId)] := by
    have h1 : QString.lt "algorithms" "device_id" = true := by decide
    have h2 : QString.lt "keys" "algorithms" = false := by decide
    have h3 : QString.lt "keys" "device_id" = false := by decide
    have h4 : QString.lt "user_id" "algorithms" = false := by decide
    have h5 : QString.lt "user_id" "device_id" = false := by decide
    have h6 : QString.lt "user_id" "keys" = false := by decide
    have e1 : ("keys" = "algorithms") = False := by decide
    have e2 : ("keys" = "device_id") = False := by decide
    have e3 : ("user_id" = "algorithms") = False := by decide
    have e4 : ("user_id" = "device_id") = False := by decide
    have e5 : ("user_id" = "keys") = False := by decide
    simp [UploadDeviceKeys.new, QJsonObject.fromPairs, QJsonObject.insert, QJsonObject.put,
      QJsonValue.isUndefined, ToJson.toJson, QJsonArray.fromStringList,
      h1, h2, h3, h4, h5, h6, e1, e2, e3, e4, e5]
  have hpath : ("/" ++ "_matrix/client/unstable/keys/upload" : String) =
      "/_matrix/client/unstable" ++ "/keys/upload" := by decide
  refine ⟨rfl, rfl, hpath, ?_, ?_, ?_, ?_, ?_⟩
  · rw [hdata]; rfl
  · rw [hdata]; rfl
  · rw [hdata]; rfl
  · rw [hdata]; rfl
  · rw [hdata]; rfl

/-- C17: `addParam<IfNotEmpty>(container, key, value)` is a conditional
insertion. For a value whose type has `isEmpty()` the container is left
unchanged when the value is empty and otherwise becomes what
`addParam(container, key, value)` makes of it; for an `Omittable` value the
container is left unchanged when the value is omitted and otherwise receives
what `addTo` adds for the contained value. -/
theorem addParam_ifNotEmpty_conditional {ContT ValT InnerT : Type} [AddTo ContT ValT]
    [HasIsEmpty ValT] [AddTo ContT InnerT] [AddTo ContT String] (container : ContT)
    (key : String) (value : ValT) (inner : InnerT) :
    (HasIsEmpty.isEmpty value = true → addParam IfNotEmpty container key value = container) ∧
      (HasIsEmpty.isEmpty value = false →
        addParam IfNotEmpty container key value = addParam true container key value ∧
        addParam IfNotEmpty container key value = AddTo.addTo container key value) ∧
      addParam IfNotEmpty container key (none : Omittable InnerT) = container ∧
      addParam IfNotEmpty container key (some inner : Omittable InnerT) =
        AddTo.addTo container key inner := by
  refine ⟨?_, ?_, rfl, rfl⟩
  · intro h
    simp [addParam, IfNotEmpty, AddNode.impl, AddNode.implIfNotEmpty, h]
  · intro h
    simp [addParam, IfNotEmpty, AddNode.impl, AddNode.implIfNotEmpty, AddNode.implPrimary, h]

theorem addParam_ifNotEmpty_conditional_witness :
    HasIsEmpty.isEmpty "" = true ∧
      addParam IfNotEmpty ([("a", "1")] : QUrlQuery) "from" "" = [("a", "1")] ∧
      HasIsEmpty.isEmpty "tok" = false ∧
      addParam IfNotEmpty ([("a", "1")] : QUrlQuery) "from" "tok" =
        addParam true ([("a", "1")] : QUrlQuery) "from" "tok" ∧
      addParam IfNotEmpty ([("a", "1")] : QUrlQuery) "limit" (some (5 : Int)) =
        AddTo.addTo ([("a", "1")] : QUrlQuery) "limit" (5 : Int) :=
  ⟨by decide,
    (addParam_ifNotEmpty_conditional ([("a", "1")] : QUrlQuery) "from" "" (5 : Int)).1
      (by decide),
    by decide,
    ((addParam_ifNotEmpty_conditional ([("a", "1")] : QUrlQuery) "from" "tok" (5 : Int)).2.1
      (by decide)).1,
    (addParam_ifNotEmpty_conditional ([("a", "1")] : QUrlQuery) "limit" "tok" (5 : Int)).2.2.2⟩

/-- C19: a bool added to a URL query is rendered as text. For every key and
bool `v`, `addTo(query, key, v)` appends exactly one item, whose value is
`true` when `v` is true and `false` when `v` is false, and never `1` or
`0`. -/
theorem addTo_bool_textual (query : QUrlQuery) (key : String) (v : Bool) :
    AddTo.addTo query key v = query ++ [(key, if v then "true" else "false")] ∧
      AddTo.addTo query key true = query ++ [(key, "true")] ∧
      AddTo.addTo query key false = query ++ [(key, "false")] ∧
      (AddTo.addTo query key v).length = query.length + 1 ∧
      (if v then "true" else "false") ≠ "1" ∧
      (if v then "true" else "false") ≠ "0" := by
  refine ⟨rfl, rfl, rfl, ?_, ?_, ?_⟩
  · show (query ++ [(key, if v then "true" else "false")]).length = query.length + 1
    simp
  · cases v <;> decide
  · cases v <;> decide

end QMatrixClient

/-! ## Properties of `MemberSorter::lowerBoundIndex` -/

namespace QMatrixClient

namespace std

theorem StrictWeakOrdering.asymm {T : Type} {comp : T → T → Bool}
    (h : StrictWeakOrdering comp) (a b : T) (hab : comp a b = true) : comp b a = false := by
  cases hba : comp b a with
  | false => rfl
  | true =>
    have := h.trans a b a hab hba
    rw [h.irrefl a] at this
    exact Bool.noConfusion this

/-- In a strict weak ordering an element that precedes another precedes
every third element or the third precedes the other. -/
theorem StrictWeakOrdering.neg_trans {T : Type} {comp : T → T → Bool}
    (h : StrictWeakOrdering comp) (a b z : T) (hab : comp a b = true) :
    comp a z = true ∨ comp z b = true := by
  cases haz : comp a z with
  | true => exact Or.inl rfl
  | false =>
    cases hzb : comp z b with
    | true => exact Or.inr rfl
    | false =>
      exfalso
      have hza : comp z a = false := by
        cases hza : comp z a with
        | false => rfl
        | true =>
          have := h.trans z a b hza hab
          rw [hzb] at this
          exact Bool.noConfusion this
      have hbz : comp b z = false := by
        cases hbz : comp b z with
        | false => rfl
        | true =>
          have := h.trans a b z hab hbz
          rw [haz] at this
          exact Bool.noConfusion this
      have := (h.incomp_trans a z b haz hza hzb hbz).1
      rw [hab] at this
      exact Bool.noConfusion this

/-- In a sorted sequence the elements that precede a value come before the
elements that do not. -/
theorem partitioned_of_sorted {T : Type} {comp : T → T → Bool}
    (h : StrictWeakOrdering comp) (c : List T) (v : T) (hsorted : SortedBy comp c)
    (i j : Nat) (ei ej : T) (hij : i < j) (hi : c.get? i = some ei) (hj : c.get? j = some ej)
    (hej : comp ej v = true) : comp ei v = true := by
  have hpair : comp ej ei = false := by
    unfold SortedBy at hsorted
    rw [List.pairwise_iff_get] at hsorted
    simp only [List.get?_eq_getElem?] at hi hj
    obtain ⟨hi1, hi2⟩ := List.getElem?_eq_some_iff.mp hi
    obtain ⟨hj1, hj2⟩ := List.getElem?_eq_some_iff.mp hj
    have := hsorted ⟨i, hi1⟩ ⟨j, hj1⟩ hij
    simp only [List.get_eq_getElem] at this
    rw [hi2, hj2] at this
    exact this
  rcases h.neg_trans ej v ei hej with h1 | h1
  · rw [hpair] at h1
    exact Bool.noConfusion h1
  · exact h1

/-- The binary search on a range whose elements preceding the value come
first: the result lies in the range, every element before it precedes the
value and no element from it on does. -/
theorem lower_bound_spec {T : Type} (comp : T → T → Bool) (c : List T) (v : T)
    (hpart : ∀ (i j : Nat) (ei ej : T), i < j → c.get? i = some ei → c.get? j = some ej →
      comp ej v = true → comp ei v = true) :
    ∀ (count first : Nat), first + count ≤ c.length →
      (∀ (j : Nat) (e : T), j < first → c.get? j = some e → comp e v = true) →
      (∀ (j : Nat) (e : T), first + count ≤ j → c.get? j = some e → comp e v = false) →
      first ≤ lower_bound comp c v first count ∧
        lower_bound comp c v first count ≤ first + count ∧
        (∀ (j : Nat) (e : T), j < lower_bound comp c v first count →
          c.get? j = some e → comp e v = true) ∧
        (∀ (j : Nat) (e : T), lower_bound comp c v first count ≤ j →
          c.get? j = some e → comp e v = false) := by
  intro count
  induction count using Nat.strong_induction_on with
  | _ count ih =>
    intro first hlen hbefore hafter
    rw [lower_bound]
    by_cases hpos : 0 < count
    · simp only [hpos, if_true]
      have hit : first + count / 2 < c.length := by omega
      obtain ⟨e, he⟩ : ∃ e, c.get? (first + count / 2) = some e := by
        refine ⟨c.get ⟨first + count / 2, hit⟩, ?_⟩
        exact List.get?_eq_get hit
      simp only [he]
      cases hc : comp e v with
      | true =>
        simp only [if_true]
        have hrec := ih (count - (count / 2 + 1)) (by omega) (first + count / 2 + 1)
          (by omega)
          (by
            intro j x hj hx
            by_cases hj2 : j = first + count / 2
            · rw [hj2, he] at hx
              cases hx
              exact hc
            · exact hpart j (first + count / 2) x e (by omega) hx he hc)
          (by
            intro j x hj hx
            exact hafter j x (by omega) hx)
        refine ⟨by omega, by omega, hrec.2.2.1, hrec.2.2.2⟩
      | false =>
        simp only [Bool.false_eq_true, if_false]
        have hrec := ih (count / 2) (by omega) first (by omega) hbefore
          (by
            intro j x hj hx
            by_cases hj2 : j = first + count / 2
            · rw [hj2, he] at hx
              cases hx
              exact hc
            · cases hx2 : comp x v with
              | false => rfl
              | true =>
                have := hpart (first + count / 2) j e x (by omega) he hx hx2
                rw [hc] at this
                exact Bool.noConfusion this)
        refine ⟨hrec.1, by omega, hrec.2.2.1, hrec.2.2.2⟩
    · simp only [hpos, if_false]
      have h0 : count = 0 := by omega
      subst h0
      exact ⟨le_refl _, by omega, hbefore, fun j x hj hx => hafter j x (by omega) hx⟩

/-- Inserting a value at an index that separates the elements preceding it
from the others keeps a sorted sequence sorted. -/
theorem sorted_insert {T : Type} {comp : T → T → Bool} (h : StrictWeakOrdering comp)
    (c : List T) (v : T) (i : Nat) (hsorted : SortedBy comp c)
    (hbefore : ∀ (j : Nat) (e : T), j < i → c.get? j = some e → comp e v = true)
    (hafter : ∀ (j : Nat) (e : T), i ≤ j → c.get? j = some e → comp e v = false) :
    SortedBy comp (c.take i ++ v :: c.drop i) := by
  have hsplit : SortedBy comp (c.take i ++ c.drop i) := by
    rw [List.take_append_drop]; exact hsorted
  unfold SortedBy at hsplit ⊢
  rw [List.pairwise_append] at hsplit ⊢
  obtain ⟨htake, hdrop, hcross⟩ := hsplit
  refine ⟨htake, ?_, ?_⟩
  · rw [List.pairwise_cons]
    refine ⟨?_, hdrop⟩
    intro b hb
    obtain ⟨j, hj⟩ := List.mem_iff_get?.mp hb
    rw [List.get?_eq_getElem?, List.getElem?_drop] at hj
    exact hafter (i + j) b (by omega) (by rw [List.get?_eq_getElem?]; exact hj)
  · intro a ha b hb
    rw [List.mem_cons] at hb
    rcases hb with hb | hb
    · subst hb
      obtain ⟨j, hj⟩ := List.mem_iff_get?.mp ha
      have hjlt : j < i := by
        have h1 : j < (c.take i).length := by
          simp only [List.get?_eq_getElem?] at hj
          exact (List.getElem?_eq_some_iff.mp hj).1
        rw [List.length_take] at h1
        omega
      rw [List.get?_eq_getElem?, List.getElem?_take_of_lt hjlt] at hj
      exact h.asymm a b (hbefore j a hjlt (by rw [List.get?_eq_getElem?]; exact hj))
    · exact hcross a ha b hb

end std

namespace MemberSorter

theorem QString_lt_iff (a b : String) : QString.lt a b = true ↔ a < b := by
  simp only [QString.lt, decide_eq_true_eq]
  exact String.lt_iff_toList_lt.symm

theorem call_iff (u1 u2 : Member) :
    call u1 u2 = true ↔
      toLex (QString.toLower u1.displayName, u1.id) <
        toLex (QString.toLower u2.displayName, u2.id) := by
  rw [Prod.Lex.lt_iff]
  simp only [call, Bool.or_eq_true, Bool.and_eq_true, beq_iff_eq, QString_lt_iff]

theorem call_false_iff (u1 u2 : Member) :
    call u1 u2 = false ↔
      ¬ toLex (QString.toLower u1.displayName, u1.id) <
        toLex (QString.toLower u2.displayName, u2.id) := by
  rw [← call_iff, Bool.not_eq_true]

/-- The order of the member sorter, by lowercased display name and then by
user id, is a strict weak ordering. -/
theorem call_strictWeakOrdering : std.StrictWeakOrdering call := by
  refine ⟨?_, ?_, ?_⟩
  · intro a
    rw [call_false_iff]
    exact lt_irrefl _
  · intro a b c hab hbc
    rw [call_iff] at hab hbc ⊢
    exact lt_trans hab hbc
  · intro a b c hab hba hbc hcb
    rw [call_false_iff] at hab hba hbc hcb ⊢
    rw [call_false_iff]
    have e1 := le_antisymm (not_lt.mp hba) (not_lt.mp hab)
    have e2 := le_antisymm (not_lt.mp hcb) (not_lt.mp hbc)
    rw [e1, e2]
    exact ⟨lt_irrefl _, lt_irrefl _⟩

/-- C20: for every container `c` that is sorted with respect to the sorter, a
strict weak ordering, and every `v`, `lowerBoundIndex(c, v)` returns an index
`i` with `0 <= i <= size(c)` such that every element before position `i`
precedes `v` under the sorter and no element at or after position `i`
precedes `v`; inserting `v` at `i` keeps `c` sorted. -/
theorem lowerBoundIndex_partition {T : Type} (sorter : T → T → Bool)
    (hsorter : std.StrictWeakOrdering sorter) (c : List T) (v : T)
    (hsorted : std.SortedBy sorter c) :
    0 ≤ lowerBoundIndex sorter c v ∧
      lowerBoundIndex sorter c v ≤ c.length ∧
      (∀ (j : Nat) (e : T), j < lowerBoundIndex sorter c v → c.get? j = some e →
        sorter e v = true) ∧
      (∀ (j : Nat) (e : T), lowerBoundIndex sorter c v ≤ j → c.get? j = some e →
        sorter e v = false) ∧
      std.SortedBy sorter
        (c.take (lowerBoundIndex sorter c v) ++ v :: c.drop (lowerBoundIndex sorter c v)) := by
  have hspec := std.lower_bound_spec sorter c v
    (fun i j ei ej hij hi hj hej =>
      std.partitioned_of_sorted hsorter c v hsorted i j ei ej hij hi hj hej)
    c.length 0 (by omega)
    (fun j e hj _ => absurd hj (Nat.not_lt_zero j))
    (fun j e hj he => by
      exfalso
      simp only [List.get?_eq_getElem?] at he
      have := (List.getElem?_eq_some_iff.mp he).1
      omega)
  have hidx : lowerBoundIndex sorter c v = std.lower_bound sorter c v 0 c.length := by
    simp [lowerBoundIndex]
  rw [hidx]
  refine ⟨Nat.zero_le _, by have := hspec.2.1; omega, hspec.2.2.1, hspec.2.2.2, ?_⟩
  exact std.sorted_insert hsorter c v _ hsorted hspec.2.2.1 hspec.2.2.2

theorem lowerBoundIndex_partition_witness :
    std.StrictWeakOrdering call ∧ std.SortedBy call sampleMembers ∧
      lowerBoundIndex call sampleMembers ⟨"@sam0:s", "sam"⟩ ≤ sampleMembers.length ∧
      std.SortedBy call
        (sampleMembers.take (lowerBoundIndex call sampleMembers ⟨"@sam0:s", "sam"⟩) ++
          ⟨"@sam0:s", "sam"⟩ ::
            sampleMembers.drop (lowerBoundIndex call sampleMembers ⟨"@sam0:s", "sam"⟩)) :=
  ⟨call_strictWeakOrdering, by unfold std.SortedBy; decide,
    (lowerBoundIndex_partition call call_strictWeakOrdering sampleMembers ⟨"@sam0:s", "sam"⟩
      (by unfold std.SortedBy; decide)).2.1,
    (lowerBoundIndex_partition call call_strictWeakOrdering sampleMembers ⟨"@sam0:s", "sam"⟩
      (by unfold std.SortedBy; decide)).2.2.2.2⟩

end MemberSorter

end QMatrixClient

/-! ## Properties of the room transitions and of the login signals -/

namespace QMatrixClient

theorem QHash.lookup_remove {V : Type} (h : QHash V) (key : String) :
    QHash.lookup (QHash.remove h key) key = none := by
  have hf : (h.filter (fun e => e.1 != key)).find? (fun e => e.1 == key) = none := by
    rw [List.find?_eq_none]
    intro x hx
    have := (List.mem_filter.mp hx).2
    simp only [bne_iff_ne, ne_eq] at this
    simp [this]
  simp [QHash.lookup, QHash.remove, hf]

theorem QHash.contains_of_lookup_none {V : Type} (h : QHash V) (key : String)
    (hl : QHash.lookup h key = none) : QHash.contains h key = false := by
  simp only [QHash.lookup, Option.map_eq_none', List.find?_eq_none] at hl
  cases hc : QHash.contains h key with
  | false => rfl
  | true =>
    simp only [QHash.contains, List.any_eq_true] at hc
    obtain ⟨x, hx, hk⟩ := hc
    exact absurd hk (hl x hx)

theorem QHash.lookup_insert_new {V : Type} (h : QHash V) (key : String) (v : V)
    (hl : QHash.lookup h key = none) : QHash.lookup (QHash.insert h key v) key = some v := by
  rw [QHash.insert_of_not_contains h key v (QHash.contains_of_lookup_none h key hl)]
  simp only [QHash.lookup, Option.map_eq_none'] at hl
  simp [QHash.lookup, List.find?_append, hl]

namespace Connection

/-- C22: when a room known only as an invitation, with invite object `i`, is
then reported as joined, `provideRoom` creates a new room object `r` and the
connection emits, in this order, `newRoom(r)`, `joinedRoom(r, i)` and
`aboutToDeleteRoom(i)`; `r` and `i` are distinct objects, and afterwards the
invitation is gone and `r` is registered in Join state. -/
theorem invite_to_join_signals (w : RoomRegistry) (roomId : String) (i : Ptr)
    (hinvite : QHash.lookup w.invites roomId = some i)
    (honly : QHash.lookup w.rooms roomId = none) (hexists : i < w.nextPtr) :
    (provideRoom w roomId JoinState.Join).1 = w.nextPtr ∧
      (provideRoom w roomId JoinState.Join).2.emitted =
        w.emitted ++ [RoomSignal.newRoom w.nextPtr, RoomSignal.joinedRoom w.nextPtr i,
          RoomSignal.aboutToDeleteRoom i] ∧
      (provideRoom w roomId JoinState.Join).1 ≠ i ∧
      QHash.lookup (provideRoom w roomId JoinState.Join).2.invites roomId = none ∧
      QHash.lookup (provideRoom w roomId JoinState.Join).2.rooms roomId =
        some (w.nextPtr, JoinState.Join) := by
  have hp : provideRoom w roomId JoinState.Join =
      (w.nextPtr,
        { nextPtr := w.nextPtr + 1,
          invites := QHash.remove w.invites roomId,
          rooms := QHash.insert w.rooms roomId (w.nextPtr, JoinState.Join),
          emitted := w.emitted ++ [RoomSignal.newRoom w.nextPtr,
            RoomSignal.joinedRoom w.nextPtr i, RoomSignal.aboutToDeleteRoom i] }) := by
    simp [provideRoom, hinvite, honly, RoomSignal.transition]
  rw [hp]
  refine ⟨rfl, rfl, ?_, ?_, ?_⟩
  · exact Ne.symm (Nat.ne_of_lt hexists)
  · exact QHash.lookup_remove w.invites roomId
  · exact QHash.lookup_insert_new w.rooms roomId _ honly

theorem invite_to_join_signals_witness :
    QHash.lookup (provideRoom noRooms "!a:s" JoinState.Invite).2.invites "!a:s" = some 1 ∧
      QHash.lookup (provideRoom noRooms "!a:s" JoinState.Invite).2.rooms "!a:s" = none ∧
      1 < (provideRoom noRooms "!a:s" JoinState.Invite).2.nextPtr ∧
      (provideRoom (provideRoom noRooms "!a:s" JoinState.Invite).2 "!a:s"
          JoinState.Join).2.emitted =
        (provideRoom noRooms "!a:s" JoinState.Invite).2.emitted ++
          [RoomSignal.newRoom (provideRoom noRooms "!a:s" JoinState.Invite).2.nextPtr,
            RoomSignal.joinedRoom (provideRoom noRooms "!a:s" JoinState.Invite).2.nextPtr 1,
            RoomSignal.aboutToDeleteRoom 1] :=
  ⟨by decide, by decide, by decide,
    (invite_to_join_signals (provideRoom noRooms "!a:s" JoinState.Invite).2 "!a:s" 1
      (by decide) (by decide) (by decide)).2.1⟩

/-- C23 at the failing input: a connection that is `Disconnected` starts a
login, the status becomes `Connecting`, and the login job finishes without
error; the connection then emits `connected` twice, once in
`connectWithToken` and once more in the slot of `invokeLogin`. -/
theorem login_connected_twice :
    status (connectToServer disconnectedWorld "alice" "secret") = Status.Connecting ∧
      (jobEmits (connectToServer disconnectedWorld "alice" "secret") 1 JobSignal.result
        sampleReply).emitted =
        [Signal.statusChanged Status.Connecting, Signal.statusChanged Status.Connected,
          Signal.connected, Signal.connected] ∧
      (jobEmits (connectToServer disconnectedWorld "alice" "secret") 1 JobSignal.result
        sampleReply).emitted.count Signal.connected = 2 ∧
      (jobEmits (connectToServer sampleWorld "alice" "secret") 3 JobSignal.result
        sampleReply).emitted.count Signal.connected = 1 := by
  decide

end Connection

end QMatrixClient

/-! ## Properties of the request path and of the member names -/

namespace QMatrixClient

/-- Two lists that agree, each cut at its first occurrence of a character,
agree before the cut and after it. -/
theorem split_at_first (c : Char) :
    ∀ (l1 l2 t1 t2 : List Char), c ∉ l1 → c ∉ l2 → l1 ++ c :: t1 = l2 ++ c :: t2 →
      l1 = l2 ∧ t1 = t2 := by
  intro l1
  induction l1 with
  | nil =>
    intro l2 t1 t2 _ h2 h
    cases l2 with
    | nil =>
      simp only [List.nil_append, List.cons.injEq, true_and] at h
      exact ⟨rfl, h⟩
    | cons b l2 =>
      exfalso
      simp only [List.nil_append, List.cons_append, List.cons.injEq] at h
      exact h2 (by rw [← h.1]; exact List.mem_cons_self _ _)
  | cons a l1 ih =>
    intro l2 t1 t2 h1 h2 h
    cases l2 with
    | nil =>
      exfalso
      simp only [List.nil_append, List.cons_append, List.cons.injEq] at h
      exact h1 (by rw [h.1]; exact List.mem_cons_self _ _)
    | cons b l2 =>
      simp only [List.cons_append, List.cons.injEq] at h
      obtain ⟨hab, hrest⟩ := h
      have := ih l2 t1 t2 (fun hm => h1 (List.mem_cons_of_mem _ hm))
        (fun hm => h2 (List.mem_cons_of_mem _ hm)) hrest
      exact ⟨by rw [hab, this.1], this.2⟩

theorem eventContext_path_eq (r1 e1 r2 e2 : String) (hr1 : '/' ∉ r1.data)
    (hr2 : '/' ∉ r2.data)
    (h : basePath ++ "/rooms/" ++ r1 ++ "/context/" ++ e1 =
      basePath ++ "/rooms/" ++ r2 ++ "/context/" ++ e2) : r1 = r2 ∧ e1 = e2 := by
  have hd := congrArg String.data h
  simp only [String.data_append, List.append_assoc] at hd
  have h1 := List.append_cancel_left (List.append_cancel_left hd)
  simp only [List.cons_append] at h1
  obtain ⟨ha, hb⟩ := split_at_first '/' _ _ _ _ hr1 hr2 h1
  simp only [List.nil_append, List.cons.injEq, true_and] at hb
  exact ⟨String.ext ha, String.ext hb⟩

/-- C27: the request path of the event context identifies its target. For
all room ids that contain no `/` and all event ids, so also for those that
contain no `/`, two different pairs of room id and event id give two
different endpoints of the job and two different paths of
`makeRequestUrl`. -/
theorem eventContext_path_injective (baseUrl1 baseUrl2 r1 e1 r2 e2 : String)
    (limit1 limit2 : Omittable Int) (hr1 : '/' ∉ r1.data)
    (hr2 : '/' ∉ r2.data) (hne : (r1, e1) ≠ (r2, e2)) :
    (GetEventContextJob.new r1 e1 limit1).endpoint ≠
        (GetEventContextJob.new r2 e2 limit2).endpoint ∧
      (GetEventContextJob.makeRequestUrl baseUrl1 r1 e1 limit1).path ≠
        (GetEventContextJob.makeRequestUrl baseUrl2 r2 e2 limit2).path := by
  have key : basePath ++ "/rooms/" ++ r1 ++ "/context/" ++ e1 ≠
      basePath ++ "/rooms/" ++ r2 ++ "/context/" ++ e2 := by
    intro h
    obtain ⟨ha, hb⟩ := eventContext_path_eq r1 e1 r2 e2 hr1 hr2 h
    exact hne (by rw [ha, hb])
  exact ⟨key, key⟩

theorem eventContext_path_injective_witness :
    '/' ∉ ("!a:s" : String).data ∧ '/' ∉ ("!b:s" : String).data ∧
      (("!a:s", "$e1") : String × String) ≠ ("!b:s", "$e1") ∧
      (GetEventContextJob.new "!a:s" "$e1" none).endpoint ≠
        (GetEventContextJob.new "!b:s" "$e1" (some 3)).endpoint :=
  ⟨by decide, by decide, by decide,
    (eventContext_path_injective "" "" "!a:s" "$e1" "!b:s" "$e1" none (some 3)
      (by decide) (by decide) (by decide)).1⟩

namespace Room

theorem membername_unique (members : List Member) (u : Member)
    (h : members.any (fun m => m.displayName == u.displayName && m.id != u.id) = false) :
    roomMembername members u = u.displayName := by
  simp [roomMembername, h]

theorem membername_ambiguous (members : List Member) (u : Member)
    (h : members.any (fun m => m.displayName == u.displayName && m.id != u.id) = true) :
    roomMembername members u = u.displayName ++ " (" ++ u.id ++ ")" := by
  simp [roomMembername, h]

/-- Two disambiguated names with user ids that contain no opening
parenthesis are equal only for equal user ids. -/
theorem disambiguated_eq (d1 id1 d2 id2 : String) (h1 : '(' ∉ id1.data)
    (h2 : '(' ∉ id2.data) (h : d1 ++ " (" ++ id1 ++ ")" = d2 ++ " (" ++ id2 ++ ")") :
    id1 = id2 := by
  have hd := congrArg (fun s => s.data.reverse) h
  have hp : (" (" : String).data = [' ', '('] := by decide
  have hq : (")" : String).data = [')'] := by decide
  simp only [String.data_append, List.reverse_append, hp, hq, List.reverse_cons,
    List.reverse_nil, List.nil_append, List.singleton_append, List.cons_append,
    List.append_assoc, List.cons.injEq, true_and] at hd
  have := split_at_first '(' id1.data.reverse id2.data.reverse _ _
    (by simpa using h1) (by simpa using h2) hd
  exact String.ext (List.reverse_injective this.1)

/-- The amended C21: a user whose display name is unique in the room gets
that display name, and every other user gets `<display_name> (<mxid>)`. For
two members with different user ids that contain no opening parenthesis the
names differ, unless the display name of one of them is the disambiguated
name of the other; of the two only the second needs to be in the room. -/
theorem roomMembername_disambiguates (members : List Member) (u1 u2 : Member)
    (hm2 : u2 ∈ members) (hid : u1.id ≠ u2.id)
    (hp1 : '(' ∉ u1.id.data) (hp2 : '(' ∉ u2.id.data)
    (hform1 : u1.displayName ≠ u2.displayName ++ " (" ++ u2.id ++ ")")
    (hform2 : u2.displayName ≠ u1.displayName ++ " (" ++ u1.id ++ ")") :
    roomMembername members u1 ≠ roomMembername members u2 ∧
      (members.any (fun m => m.displayName == u1.displayName && m.id != u1.id) = false →
        roomMembername members u1 = u1.displayName) ∧
      (members.any (fun m => m.displayName == u1.displayName && m.id != u1.id) = true →
        roomMembername members u1 = u1.displayName ++ " (" ++ u1.id ++ ")") := by
  refine ⟨?_, membername_unique members u1, membername_ambiguous members u1⟩
  intro heq
  cases ha1 : members.any (fun m => m.displayName == u1.displayName && m.id != u1.id) with
  | false =>
    rw [membername_unique members u1 ha1] at heq
    cases ha2 : members.any (fun m => m.displayName == u2.displayName && m.id != u2.id) with
    | false =>
      rw [membername_unique members u2 ha2] at heq
      rw [List.any_eq_false] at ha1
      apply ha1 u2 hm2
      simp [heq, Ne.symm hid]
    | true =>
      rw [membername_ambiguous members u2 ha2] at heq
      exact hform1 heq
  | true =>
    rw [membername_ambiguous members u1 ha1] at heq
    cases ha2 : members.any (fun m => m.displayName == u2.displayName && m.id != u2.id) with
    | false =>
      rw [membername_unique members u2 ha2] at heq
      exact hform2 heq.symm
    | true =>
      rw [membername_ambiguous members u2 ha2] at heq
      exact hid (disambiguated_eq _ _ _ _ hp1 hp2 heq)

theorem roomMembername_disambiguates_witness :
    (⟨"@sam1:s", "Sam"⟩ : Member) ∈ collidingMembers ∧
      (⟨"@sam2:s", "Sam"⟩ : Member) ∈ collidingMembers ∧
      roomMembername collidingMembers ⟨"@sam1:s", "Sam"⟩ ≠
        roomMembername collidingMembers ⟨"@sam2:s", "Sam"⟩ ∧
      roomMembername collidingMembers ⟨"@sam1:s", "Sam"⟩ = "Sam" ++ " (" ++ "@sam1:s" ++ ")" :=
  ⟨by decide, by decide,
    (roomMembername_disambiguates collidingMembers ⟨"@sam1:s", "Sam"⟩ ⟨"@sam2:s", "Sam"⟩
      (by decide) (by decide) (by decide) (by decide) (by decide) (by decide)).1,
    (roomMembername_disambiguates collidingMembers ⟨"@sam1:s", "Sam"⟩ ⟨"@sam2:s", "Sam"⟩
      (by decide) (by decide) (by decide) (by decide) (by decide) (by decide)).2.2
      (by decide)⟩

/-- C21 fails as stated: in a room with two members named Sam, the member
`@sam1:s` gets the name `Sam (@sam1:s)`, and so does the distinct member
`@eve:s`, whose display name `Sam (@sam1:s)` is unique in the room. Two
members whose display names are both shared get one name as well when a user
id contains an opening parenthesis. -/
theorem roomMembername_counterexample :
    (⟨"@sam1:s", "Sam"⟩ : Member) ∈ collidingMembers ∧
      (⟨"@eve:s", "Sam (@sam1:s)"⟩ : Member) ∈ collidingMembers ∧
      (⟨"@sam1:s", "Sam"⟩ : Member).id ≠ (⟨"@eve:s", "Sam (@sam1:s)"⟩ : Member).id ∧
      roomMembername collidingMembers ⟨"@sam1:s", "Sam"⟩ =
        roomMembername collidingMembers ⟨"@eve:s", "Sam (@sam1:s)"⟩ ∧
      (⟨"@y:s", "a (@x:s)"⟩ : Member) ∈ collidingIds ∧
      (⟨"@x:s) (@y:s", "a"⟩ : Member) ∈ collidingIds ∧
      roomMembername collidingIds ⟨"@y:s", "a (@x:s)"⟩ =
        roomMembername collidingIds ⟨"@x:s) (@y:s", "a"⟩ := by
  decide

end Room

end QMatrixClient

/-! ## Properties of the container converters -/

namespace QMatrixClient

theorem toJsonQVector_foldl {T : Type} [ToJson T] (vals : List T) :
    ∀ ar : QJsonArray,
      vals.foldl (fun ar v => QJsonArray.push_back ar (ToJson.toJson v)) ar =
        ar ++ vals.map (fun v => QJsonArray.stored (ToJson.toJson v)) := by
  induction vals with
  | nil => intro ar; simp
  | cons v rest ih =>
    intro ar
    simp only [List.foldl_cons, List.map_cons]
    rw [ih]
    simp [QJsonArray.push_back]

theorem toJsonQVector_eq {T : Type} [ToJson T] (vals : List T) :
    toJsonQVector vals = vals.map (fun v => QJsonArray.stored (ToJson.toJson v)) := by
  unfold toJsonQVector
  rw [toJsonQVector_foldl]
  simp

theorem QJsonArray.stored_of_defined (value : QJsonValue) (h : value.isUndefined = false) :
    QJsonArray.stored value = value := by
  simp [QJsonArray.stored, h]

/-- The amended C26: the array converters preserve length and order.
`toJson(v)` is an array of the length of `v` whose i-th element is
`toJson(v[i])` as the array stores it, which is `toJson(v[i])` itself unless
that is `Undefined`; `fromJson<QVector<T>>(toJson(v))` has the length of `v`
and its i-th element is `fromJson<T>` of that stored element; so for a vector
whose elements convert to defined JSON values it equals `v` whenever
`fromJson<T>` undoes `toJson` on every element. -/
theorem arrayConverters_roundtrip {T : Type} [ToJson T] [FromJson T] (v : List T) :
    (toJsonQVector v).length = v.length ∧
      (∀ i : Nat, (toJsonQVector v).get? i =
        (v.get? i).map (fun x => QJsonArray.stored (ToJson.toJson x))) ∧
      ((∀ x ∈ v, (ToJson.toJson x).isUndefined = false) →
        ∀ i : Nat, (toJsonQVector v).get? i = (v.get? i).map (fun x => ToJson.toJson x)) ∧
      (fromJsonQVector (QJsonValue.array (toJsonQVector v)) : List T).length = v.length ∧
      (∀ i : Nat, (fromJsonQVector (QJsonValue.array (toJsonQVector v)) : List T).get? i =
        (v.get? i).map
          (fun x => FromJson.fromJson (QJsonArray.stored (ToJson.toJson x)))) ∧
      ((∀ x ∈ v, (ToJson.toJson x).isUndefined = false) →
        (∀ x ∈ v, FromJson.fromJson (ToJson.toJson x) = x) →
        (fromJsonQVector (QJsonValue.array (toJsonQVector v)) : List T) = v) := by
  have hfrom : (fromJsonQVector (QJsonValue.array (toJsonQVector v)) : List T) =
      v.map (fun x => FromJson.fromJson (QJsonArray.stored (ToJson.toJson x))) := by
    simp [fromJsonQVector, ArrayFromJson, QJsonValue.toArray, toJsonQVector_eq]
  refine ⟨?_, ?_, ?_, ?_, ?_, ?_⟩
  · simp [toJsonQVector_eq]
  · intro i
    simp [toJsonQVector_eq]
  · intro hdef i
    have hmap : v.map (fun x => QJsonArray.stored (ToJson.toJson x)) =
        v.map (fun x => ToJson.toJson x) :=
      List.map_congr_left (fun x hx => QJsonArray.stored_of_defined _ (hdef x hx))
    rw [toJsonQVector_eq, hmap]
    simp
  · rw [hfrom]; simp
  · intro i
    rw [hfrom]
    simp
  · intro hdef hundo
    rw [hfrom]
    have hmap : v.map (fun x => FromJson.fromJson (QJsonArray.stored (ToJson.toJson x))) =
        v.map (fun x => x) :=
      List.map_congr_left (fun x hx => by
        rw [QJsonArray.stored_of_defined _ (hdef x hx)]; exact hundo x hx)
    rw [hmap]
    simp

theorem arrayConverters_roundtrip_witness :
    (∀ x ∈ ([3, 1, 2] : List Int), (ToJson.toJson x).isUndefined = false) ∧
      (∀ x ∈ ([3, 1, 2] : List Int), (FromJson.fromJson (ToJson.toJson x) : Int) = x) ∧
      (fromJsonQVector (QJsonValue.array (toJsonQVector ([3, 1, 2] : List Int))) : List Int) =
        [3, 1, 2] :=
  ⟨by decide, by decide,
    (arrayConverters_roundtrip ([3, 1, 2] : List Int)).2.2.2.2.2 (by decide) (by decide)⟩

/-- C26 fails as stated: for the vector with the one element `Undefined`,
whose `toJson` is `Undefined`, the array `toJson(v)` holds `Null`. -/
theorem arrayConverters_counterexample :
    (ToJson.toJson (QJsonValue.undefined)).isUndefined = true ∧
      (toJsonQVector [QJsonValue.undefined]).get? 0 = some QJsonValue.null ∧
      (toJsonQVector [QJsonValue.undefined]).get? 0 ≠
        ([QJsonValue.undefined].get? 0).map (fun x => ToJson.toJson x) := by
  refine ⟨rfl, rfl, ?_⟩
  intro h
  have h2 : (some QJsonValue.null : Option QJsonValue) = some QJsonValue.undefined := h
  cases h2

theorem QJsonObject.insert_defined (o : QJsonObject) (key : String) (value : QJsonValue)
    (h : value.isUndefined = false) :
    QJsonObject.insert o key value = QJsonObject.put o key value := by
  simp [QJsonObject.insert, h]

theorem QJsonObject.mem_keys_put (o : QJsonObject) (key : String) (value : QJsonValue)
    (x : String) :
    x ∈ (QJsonObject.put o key value).map (fun e => e.1) ↔
      x = key ∨ x ∈ o.map (fun e => e.1) := by
  induction o with
  | nil => simp [QJsonObject.put]
  | cons e rest ih =>
    obtain ⟨k, v⟩ := e
    unfold QJsonObject.put
    split
    · simp
    · split
      · rename_i hk
        simp only [List.map_cons, List.mem_cons, hk]
        tauto
      · simp only [List.map_cons, List.mem_cons, ih]
        tauto

theorem QJsonObject.mem_put (o : QJsonObject) (key : String) (value : QJsonValue)
    (e : String × QJsonValue) (h : e ∈ QJsonObject.put o key value) :
    e = (key, value) ∨ e ∈ o := by
  induction o with
  | nil => simpa [QJsonObject.put] using h
  | cons e0 rest ih =>
    obtain ⟨k, v⟩ := e0
    unfold QJsonObject.put at h
    split at h
    · simpa using h
    · split at h
      · simp only [List.mem_cons] at h ⊢
        tauto
      · simp only [List.mem_cons] at h ⊢
        rcases h with h | h
        · exact Or.inr (Or.inl h)
        · rcases ih h with h2 | h2
          · exact Or.inl h2
          · exact Or.inr (Or.inr h2)

theorem QJsonObject.contains_iff (o : QJsonObject) (key : String) :
    QJsonObject.contains o key = true ↔ key ∈ o.map (fun e => e.1) := by
  simp only [QJsonObject.contains, List.any_eq_true, beq_iff_eq, List.mem_map]

theorem toJsonQSet_keys (set : QSet String) :
    ∀ (json : QJsonObject) (x : String),
      x ∈ (set.foldl (fun json e => QJsonObject.insert json e (QJsonValue.object []))
        json).map (fun e => e.1) ↔ x ∈ json.map (fun e => e.1) ∨ x ∈ set := by
  induction set with
  | nil => intro json x; simp
  | cons a rest ih =>
    intro json x
    simp only [List.foldl_cons]
    rw [ih, QJsonObject.insert_defined json a (QJsonValue.object []) rfl,
      QJsonObject.mem_keys_put]
    simp only [List.mem_cons]
    tauto

theorem toJsonQSet_values (set : QSet String) :
    ∀ (json : QJsonObject), (∀ e ∈ json, e.2 = QJsonValue.object []) →
      ∀ e ∈ set.foldl (fun json e => QJsonObject.insert json e (QJsonValue.object [])) json,
        e.2 = QJsonValue.object [] := by
  induction set with
  | nil => intro json h; simpa using h
  | cons a rest ih =>
    intro json h
    simp only [List.foldl_cons]
    apply ih
    intro e he
    rw [QJsonObject.insert_defined json a (QJsonValue.object []) rfl] at he
    rcases QJsonObject.mem_put _ _ _ _ he with h1 | h1
    · rw [h1]
    · exact h e h1

theorem fromJsonQSet_foldl (jo : QJsonObject) :
    ∀ (s : QSet String), s.Nodup →
      (jo.foldl (fun s e => QSet.insert s e.1) s).Nodup ∧
        ∀ x, x ∈ jo.foldl (fun s e => QSet.insert s e.1) s ↔
          x ∈ s ∨ x ∈ jo.map (fun e => e.1) := by
  induction jo with
  | nil => intro s hs; simpa using hs
  | cons e rest ih =>
    intro s hs
    simp only [List.foldl_cons]
    have hins : (QSet.insert s e.1).Nodup ∧ ∀ x, x ∈ QSet.insert s e.1 ↔ x ∈ s ∨ x = e.1 := by
      unfold QSet.insert
      split
      · rename_i hmem
        refine ⟨hs, fun x => ?_⟩
        constructor
        · exact Or.inl
        · rintro (h | h)
          · exact h
          · rw [h]; exact hmem
      · rename_i hmem
        refine ⟨?_, fun x => by simp⟩
        rw [List.nodup_append]
        refine ⟨hs, List.nodup_singleton _, ?_⟩
        intro a ha hb
        rw [List.mem_singleton] at hb
        exact hmem (hb ▸ ha)
    obtain ⟨h1, h2⟩ := ih (QSet.insert s e.1) hins.1
    refine ⟨h1, fun x => ?_⟩
    rw [h2, hins.2]
    simp only [List.map_cons, List.mem_cons]
    tauto

/-- C24: the set converters round-trip. For every set `s` of strings,
`toJson(s)` is a JSON object whose keys are exactly the elements of `s`, each
mapped to an empty object, and `fromJson<QSet<QString>>(toJson(s))` has
exactly the elements of `s`, each once, so it equals `s` as a set. -/
theorem setConverters_roundtrip (s : QSet String) :
    (∀ k : String, QJsonObject.contains (toJsonQSet s) k = true ↔ k ∈ s) ∧
      (∀ e ∈ toJsonQSet s, e.2 = QJsonValue.object []) ∧
      (∀ k : String, k ∈ s → QJsonObject.value (toJsonQSet s) k = QJsonValue.object []) ∧
      (∀ x : String, x ∈ fromJsonQSet (QJsonValue.object (toJsonQSet s)) ↔ x ∈ s) ∧
      (fromJsonQSet (QJsonValue.object (toJsonQSet s))).Nodup ∧
      (s.Nodup → List.Perm (fromJsonQSet (QJsonValue.object (toJsonQSet s))) s) := by
  have hkeys : ∀ k : String, k ∈ (toJsonQSet s).map (fun e => e.1) ↔ k ∈ s := by
    intro k
    unfold toJsonQSet
    rw [toJsonQSet_keys]
    simp
  have hvals : ∀ e ∈ toJsonQSet s, e.2 = QJsonValue.object [] :=
    toJsonQSet_values s [] (fun e he => absurd he (List.not_mem_nil e))
  have hfrom := fromJsonQSet_foldl (toJsonQSet s) [] List.nodup_nil
  have hmem : ∀ x : String, x ∈ fromJsonQSet (QJsonValue.object (toJsonQSet s)) ↔ x ∈ s := by
    intro x
    simp only [fromJsonQSet, QJsonValue.toObject]
    rw [hfrom.2, hkeys]
    simp
  refine ⟨?_, hvals, ?_, hmem, hfrom.1, ?_⟩
  · intro k
    rw [QJsonObject.contains_iff, hkeys]
  · intro k hk
    have hc := (hkeys k).mpr hk
    unfold QJsonObject.value
    cases hf : (toJsonQSet s).find? (fun e => e.1 == k) with
    | none =>
      exfalso
      rw [List.find?_eq_none] at hf
      rw [List.mem_map] at hc
      obtain ⟨e, he, hek⟩ := hc
      exact hf e he (by simp [hek])
    | some e => exact hvals e (List.mem_of_find?_eq_some hf)
  · intro hs
    exact (List.perm_ext_iff_of_nodup hfrom.1 hs).mpr hmem

theorem setConverters_roundtrip_witness :
    "b" ∈ (["b", "a", "c"] : QSet String) ∧
      QJsonObject.value (toJsonQSet ["b", "a", "c"]) "b" = QJsonValue.object [] ∧
      (["b", "a", "c"] : QSet String).Nodup ∧
      List.Perm (fromJsonQSet (QJsonValue.object (toJsonQSet ["b", "a", "c"])))
        ["b", "a", "c"] :=
  ⟨by decide, (setConverters_roundtrip ["b", "a", "c"]).2.2.1 "b" (by decide), by decide,
    (setConverters_roundtrip ["b", "a", "c"]).2.2.2.2.2 (by decide)⟩

theorem QJsonObject.mem_put_new (o : QJsonObject) (key : String) (value : QJsonValue)
    (e : String × QJsonValue) (hnew : key ∉ o.map (fun e => e.1)) :
    e ∈ QJsonObject.put o key value ↔ e = (key, value) ∨ e ∈ o := by
  induction o with
  | nil => simp [QJsonObject.put]
  | cons e0 rest ih =>
    obtain ⟨k, v⟩ := e0
    have hk : key ≠ k := fun h => hnew (by simp [h])
    have hrest : key ∉ rest.map (fun e => e.1) := fun h => hnew (by simp [h])
    unfold QJsonObject.put
    split
    · simp
    · simp only [hk, if_false, List.mem_cons, ih hrest]
      tauto

theorem QJsonObject.nodup_put_new (o : QJsonObject) (key : String) (value : QJsonValue)
    (hnew : key ∉ o.map (fun e => e.1)) (hnodup : (o.map (fun e => e.1)).Nodup) :
    ((QJsonObject.put o key value).map (fun e => e.1)).Nodup := by
  induction o with
  | nil => simp [QJsonObject.put]
  | cons e0 rest ih =>
    obtain ⟨k, v⟩ := e0
    have hk : key ≠ k := fun h => hnew (by simp [h])
    have hrest : key ∉ rest.map (fun e => e.1) := fun h => hnew (by simp [h])
    simp only [List.map_cons, List.nodup_cons] at hnodup
    unfold QJsonObject.put
    split
    · simp only [List.map_cons, List.nodup_cons]
      exact ⟨hnew, hnodup⟩
    · simp only [hk, if_false, List.map_cons, List.nodup_cons]
      refine ⟨?_, ih hrest hnodup.2⟩
      intro hmem
      rw [QJsonObject.mem_keys_put] at hmem
      rcases hmem with h | h
      · exact hk h.symm
      · exact hnodup.1 h

/-- In a list of keyed entries without a repeated key, the search for a key
finds the entry that has it. -/
theorem find_of_mem_nodup {V : Type} (l : List (String × V)) (key : String) (v : V)
    (hnodup : (l.map (fun e => e.1)).Nodup) (hmem : (key, v) ∈ l) :
    l.find? (fun e => e.1 == key) = some (key, v) := by
  induction l with
  | nil => exact absurd hmem (List.not_mem_nil _)
  | cons e rest ih =>
    simp only [List.map_cons, List.nodup_cons] at hnodup
    rw [List.mem_cons] at hmem
    rcases hmem with h | h
    · rw [← h]
      simp
    · have hne : e.1 ≠ key := by
        intro heq
        apply hnodup.1
        rw [heq]
        exact List.mem_map.mpr ⟨(key, v), h, rfl⟩
      rw [List.find?_cons_of_neg _ (by simpa using hne)]
      exact ih hnodup.2 h

theorem toJsonQHash_foldl {T : Type} [ToJson T] (l : QHash T) :
    ∀ (json : QJsonObject),
      (json.map (fun e => e.1) ++ l.map (fun e => e.1)).Nodup →
      (∀ e ∈ l, (ToJson.toJson e.2).isUndefined = false) →
      ((l.foldl (fun json e => QJsonObject.insert json e.1 (ToJson.toJson e.2)) json).map
          (fun e => e.1)).Nodup ∧
        ∀ e : String × QJsonValue,
          e ∈ l.foldl (fun json e => QJsonObject.insert json e.1 (ToJson.toJson e.2)) json ↔
            e ∈ json ∨ e ∈ l.map (fun x => (x.1, ToJson.toJson x.2)) := by
  induction l with
  | nil =>
    intro json hnodup _
    simpa using hnodup
  | cons a rest ih =>
    intro json hnodup hdef
    simp only [List.foldl_cons]
    rw [QJsonObject.insert_defined json a.1 _ (hdef a (List.mem_cons_self _ _))]
    simp only [List.map_cons] at hnodup
    rw [List.nodup_append] at hnodup
    obtain ⟨hj, hl, hdis⟩ := hnodup
    rw [List.nodup_cons] at hl
    have hnew : a.1 ∉ json.map (fun e => e.1) := fun h =>
      hdis h (List.mem_cons_self _ _)
    have hnodup2 : ((QJsonObject.put json a.1 (ToJson.toJson a.2)).map (fun e => e.1) ++
        rest.map (fun e => e.1)).Nodup := by
      rw [List.nodup_append]
      refine ⟨QJsonObject.nodup_put_new json a.1 _ hnew hj, hl.2, ?_⟩
      intro x hx hx2
      rw [QJsonObject.mem_keys_put] at hx
      rcases hx with h | h
      · exact hl.1 (h ▸ hx2)
      · exact hdis h (List.mem_cons_of_mem _ hx2)
    obtain ⟨h1, h2⟩ := ih (QJsonObject.put json a.1 (ToJson.toJson a.2)) hnodup2
      (fun e he => hdef e (List.mem_cons_of_mem _ he))
    refine ⟨h1, fun e => ?_⟩
    rw [h2, QJsonObject.mem_put_new json a.1 _ e hnew]
    simp only [List.map_cons, List.mem_cons]
    tauto

theorem HashMapFromJson_foldl {T : Type} [FromJson T] (jo : QJsonObject) :
    ∀ (h : QHash T), (h.map (fun e => e.1) ++ jo.map (fun e => e.1)).Nodup →
      jo.foldl (fun h e => QHash.insert h e.1 (FromJson.fromJson e.2)) h =
        h ++ jo.map (fun e => (e.1, (FromJson.fromJson e.2 : T))) := by
  induction jo with
  | nil => intro h _; simp
  | cons a rest ih =>
    intro h hnodup
    simp only [List.foldl_cons, List.map_cons]
    have hnew : QHash.contains h a.1 = false := by
      cases hc : QHash.contains h a.1 with
      | false => rfl
      | true =>
        exfalso
        simp only [QHash.contains, List.any_eq_true, beq_iff_eq] at hc
        obtain ⟨x, hx, hk⟩ := hc
        rw [List.map_cons, List.nodup_append] at hnodup
        exact hnodup.2.2 (List.mem_map.mpr ⟨x, hx, hk⟩) (List.mem_cons_self _ _)
    rw [QHash.insert_of_not_contains h a.1 _ hnew, ih]
    · simp
    · simpa [List.map_append] using hnodup

theorem QHash.contains_iff_key {V : Type} (h : QHash V) (key : String) :
    QHash.contains h key = true ↔ key ∈ h.map (fun e => e.1) := by
  simp only [QHash.contains, List.any_eq_true, beq_iff_eq, List.mem_map]

theorem QHash.value_of_mem {V : Type} [Inhabited V] (h : QHash V) (key : String) (v : V)
    (hnodup : (h.map (fun e => e.1)).Nodup) (hmem : (key, v) ∈ h) :
    QHash.value h key = v := by
  simp [QHash.value, find_of_mem_nodup h key v hnodup hmem]

theorem QHash.value_of_not_contains {V : Type} [Inhabited V] (h : QHash V) (key : String)
    (hc : QHash.contains h key = false) : QHash.value h key = default := by
  have hf : h.find? (fun e => e.1 == key) = none := by
    rw [List.find?_eq_none]
    intro x hx hk
    have : QHash.contains h key = true := by
      simp only [QHash.contains, List.any_eq_true]
      exact ⟨x, hx, hk⟩
    rw [hc] at this
    exact Bool.noConfusion this
  simp [QHash.value, hf]

/-- What the two hash map converters make of a hash map without a repeated
key whose values convert to defined JSON values. -/
theorem hashMap_roundtrip_eq {T : Type} [ToJson T] [FromJson T] (h : QHash T)
    (hkeys : (h.map (fun e => e.1)).Nodup)
    (hdef : ∀ e ∈ h, (ToJson.toJson e.2).isUndefined = false) :
    ((fromJsonQHash (QJsonValue.object (toJsonQHash h)) : QHash T).map
        (fun e => e.1)).Nodup ∧
      ∀ (k : String) (y : T),
        (k, y) ∈ (fromJsonQHash (QJsonValue.object (toJsonQHash h)) : QHash T) ↔
          ∃ x : T, (k, x) ∈ h ∧ y = FromJson.fromJson (ToJson.toJson x) := by
  obtain ⟨hj1, hj2⟩ := toJsonQHash_foldl h [] (by simpa using hkeys) hdef
  have hrt : (fromJsonQHash (QJsonValue.object (toJsonQHash h)) : QHash T) =
      (toJsonQHash h).map (fun e => (e.1, (FromJson.fromJson e.2 : T))) := by
    have := HashMapFromJson_foldl (T := T) (toJsonQHash h) [] (by simpa using hj1)
    simpa [fromJsonQHash, HashMapFromJson, QJsonValue.toObject] using this
  rw [hrt]
  refine ⟨?_, ?_⟩
  · simpa [List.map_map, Function.comp] using hj1
  · intro k y
    simp only [List.mem_map, Prod.mk.injEq]
    constructor
    · rintro ⟨e, he, hk, hy⟩
      have he2 := (hj2 e).mp he
      simp only [List.not_mem_nil, false_or, List.mem_map] at he2
      obtain ⟨x, hx, hxe⟩ := he2
      refine ⟨x.2, ?_, ?_⟩
      · have : x.1 = k := by rw [← hk, ← hxe]
        rw [← this]
        exact hx
      · rw [← hy, ← hxe]
    · rintro ⟨x, hx, hy⟩
      refine ⟨(k, ToJson.toJson x), ?_, rfl, hy.symm⟩
      apply (hj2 _).mpr
      right
      exact List.mem_map.mpr ⟨(k, x), hx, rfl⟩

/-- The amended C25: the string-keyed map converters round-trip on every
`QHash<QString, T>` whose values convert to defined JSON values.
`fromJson<QHash<QString, T>>(toJson(h))` has exactly the keys of `h` and maps
each key `k` to `fromJson<T>(toJson(h[k]))`; hence it has the keys and the
values of `h` whenever `fromJson<T>` undoes `toJson` on every value of
`h`. -/
theorem hashMapConverters_roundtrip {T : Type} [ToJson T] [FromJson T] [Inhabited T]
    (h : QHash T) (hkeys : (h.map (fun e => e.1)).Nodup)
    (hdef : ∀ e ∈ h, (ToJson.toJson e.2).isUndefined = false) :
    (∀ k : String,
        QHash.contains (fromJsonQHash (QJsonValue.object (toJsonQHash h)) : QHash T) k =
          QHash.contains h k) ∧
      (∀ k : String, QHash.contains h k = true →
        QHash.value (fromJsonQHash (QJsonValue.object (toJsonQHash h)) : QHash T) k =
          FromJson.fromJson (ToJson.toJson (QHash.value h k))) ∧
      ((∀ e ∈ h, (FromJson.fromJson (ToJson.toJson e.2) : T) = e.2) →
        ∀ k : String,
          QHash.value (fromJsonQHash (QJsonValue.object (toJsonQHash h)) : QHash T) k =
            QHash.value h k) := by
  obtain ⟨hn, hm⟩ := hashMap_roundtrip_eq h hkeys hdef
  have hcontains : ∀ k : String,
      QHash.contains (fromJsonQHash (QJsonValue.object (toJsonQHash h)) : QHash T) k =
        QHash.contains h k := by
    intro k
    rw [Bool.eq_iff_iff, QHash.contains_iff_key, QHash.contains_iff_key]
    simp only [List.mem_map]
    constructor
    · rintro ⟨e, he, hk⟩
      obtain ⟨x, hx, _⟩ := (hm e.1 e.2).mp he
      exact ⟨(e.1, x), hx, hk⟩
    · rintro ⟨e, he, hk⟩
      exact ⟨(e.1, FromJson.fromJson (ToJson.toJson e.2)), (hm _ _).mpr ⟨e.2, he, rfl⟩, hk⟩
  have hvalue : ∀ k : String, QHash.contains h k = true →
      QHash.value (fromJsonQHash (QJsonValue.object (toJsonQHash h)) : QHash T) k =
        FromJson.fromJson (ToJson.toJson (QHash.value h k)) ∧
      (k, QHash.value h k) ∈ h := by
    intro k hk
    rw [QHash.contains_iff_key, List.mem_map] at hk
    obtain ⟨e, he, hek⟩ := hk
    have he2 : (k, e.2) ∈ h := by rw [← hek]; exact he
    rw [QHash.value_of_mem h k e.2 hkeys he2]
    exact ⟨QHash.value_of_mem _ k _ hn ((hm k _).mpr ⟨e.2, he2, rfl⟩), he2⟩
  refine ⟨hcontains, fun k hk => (hvalue k hk).1, ?_⟩
  intro hundo k
  cases hk : QHash.contains h k with
  | true =>
    rw [(hvalue k hk).1]
    exact hundo _ (hvalue k hk).2
  | false =>
    rw [QHash.value_of_not_contains h k hk,
      QHash.value_of_not_contains _ k (by rw [hcontains k]; exact hk)]

theorem hashMapConverters_roundtrip_witness :
    (([("k", 3), ("a", 4)] : QHash Int).map (fun e => e.1)).Nodup ∧
      (∀ e ∈ ([("k", 3), ("a", 4)] : QHash Int), (ToJson.toJson e.2).isUndefined = false) ∧
      QHash.contains ([("k", 3), ("a", 4)] : QHash Int) "k" = true ∧
      (∀ e ∈ ([("k", 3), ("a", 4)] : QHash Int),
        (FromJson.fromJson (ToJson.toJson e.2) : Int) = e.2) ∧
      QHash.value (fromJsonQHash (QJsonValue.object
          (toJsonQHash ([("k", 3), ("a", 4)] : QHash Int))) : QHash Int) "k" =
        QHash.value ([("k", 3), ("a", 4)] : QHash Int) "k" :=
  ⟨by decide, by decide, by decide, by decide,
    (hashMapConverters_roundtrip ([("k", 3), ("a", 4)] : QHash Int) (by decide)
      (by decide)).2.2 (by decide) "k"⟩

/-- C25 fails as stated: the hash map with the one key `k`, whose value
converts to `Undefined`, becomes the empty JSON object, so the map read back
does not have the key `k`. -/
theorem hashMapConverters_counterexample :
    QHash.contains ([("k", QJsonValue.undefined)] : QHash QJsonValue) "k" = true ∧
      (toJsonQHash ([("k", QJsonValue.undefined)] : QHash QJsonValue)).length = 0 ∧
      QHash.contains (fromJsonQHash (QJsonValue.object
        (toJsonQHash ([("k", QJsonValue.undefined)] : QHash QJsonValue))) :
          QHash QJsonValue) "k" = false := by
  decide

end QMatrixClient
